import Mathlib

/-!
Shallow embedding of the ifc-viewer core (IFCManager and PropertyValidator)
and proofs about its validation, property-extraction, spatial-normalization
and highlight-lifecycle behaviour.

Conventions of the embedding:
* JavaScript numbers are modelled as `Int` (ids) and `ℚ` (coordinates);
  numeric operations are modelled exactly.
* A JavaScript `async` call into the external web-ifc engine is modelled as a
  function returning `Except String α`; a `try { … } catch { … }` block is
  modelled by matching on the `Except` value.
* `undefined`/missing fields are modelled with `Option`.
* `console.warn`/`console.log` messages that the claims refer to are collected
  in result lists of strings.
-/

/-- An open-schema scalar value as it appears in web-ifc property records:
`null`/`undefined`, a number, a string or a boolean. -/
inductive IfcVal where
  | vnull
  | vnum (n : Int)
  | vstr (s : String)
  | vbool (b : Bool)
deriving DecidableEq, Repr

/-- JavaScript truthiness of an `IfcVal`. -/
def IfcVal.truthy : IfcVal → Bool
  | .vnull => false
  | .vnum n => n ≠ 0
  | .vstr s => s ≠ ""
  | .vbool b => b

/-- JavaScript strict equality `v === s` between an open-schema value and a
string literal: true only when `v` is that very string. -/
def IfcVal.strictEqStr : IfcVal → String → Bool
  | .vstr t, s => t = s
  | _, _ => false

/-- A `{ value: … }` wrapper record, as web-ifc wraps names and handles
(`ps.Name.value`, `assoc.value`). -/
structure ValueBox where
  value : IfcVal
deriving DecidableEq, Repr

/-- An entry of a property set's `HasProperties` array; the code only reads
its (possibly missing) `Name` wrapper. -/
structure PropEntry where
  Name : Option ValueBox
deriving DecidableEq, Repr

/-- An open-schema record returned by `getItemProperties`/`getPropertySets`,
restricted to the fields the viewer actually reads: `type`, the constructor
name used as fallback class label, `Name`, `HasAssociations`, `HasProperties`
and `expressID`. -/
structure IfcRecord where
  type : IfcVal
  ctorName : String
  Name : Option ValueBox
  HasAssociations : Option (List ValueBox)
  HasProperties : Option (List PropEntry)
  expressID : Int
deriving DecidableEq, Repr

/-- The external web-ifc engine, seen through the two per-element queries the
validator and the property extractor make.  Each call may fail (promise
rejection), modelled by `Except`. -/
structure IfcEngine where
  getItemProperties : Int → IfcVal → Except String IfcRecord
  getPropertySets : Int → IfcVal → Bool → Except String (List IfcRecord)

/-- A 3-component vector; coordinates modelled exactly as rationals. -/
structure Vec3 where
  x : ℚ
  y : ℚ
  z : ℚ
deriving DecidableEq, Repr

/-- Componentwise sum of two vectors. -/
def Vec3.add (a b : Vec3) : Vec3 := ⟨a.x + b.x, a.y + b.y, a.z + b.z⟩

/-- Componentwise negation. -/
def Vec3.neg (a : Vec3) : Vec3 := ⟨-a.x, -a.y, -a.z⟩

/-- A renderable geometry: its vertex positions. -/
structure Geometry where
  vertices : List Vec3
deriving DecidableEq, Repr

/-- `geometry.translate(tx, ty, tz)`: shifts every vertex position. -/
def Geometry.translate (t : Vec3) (g : Geometry) : Geometry :=
  ⟨g.vertices.map (fun v => v.add t)⟩

/-- A THREE.Mesh as the viewer sees it: the loader-attached `expressID` and
`modelID` fields (possibly `undefined`), its geometry (possibly absent) and
its world transform, which in this viewer is a pure translation. -/
structure IFCMesh where
  expressID : Option Int
  modelID : Option Int
  geometry : Option Geometry
  matrixWorldT : Vec3
deriving DecidableEq, Repr

/-- `(mesh as any).modelID || 0`. -/
def IFCMesh.modelIDor0 (m : IFCMesh) : Int := m.modelID.getD 0

/-- The raw `(mesh as any).expressID` value (`undefined` when absent). -/
def IFCMesh.expressVal (m : IFCMesh) : IfcVal :=
  match m.expressID with
  | some n => IfcVal.vnum n
  | none => IfcVal.vnull

/-- The loaded model object: its mesh children, its container position and the
`offset` attribute that `centerModel` may attach (absent until then). -/
structure Model3D where
  meshes : List IFCMesh
  position : Vec3
  offset : Option Vec3
deriving DecidableEq, Repr

/-- A validation rule (`PropertyValidator.ts`): class-match token, required
property-set names, and required property names per property-set name
(`Object.entries` order modelled by an association list). -/
structure ValidationRule where
  ifcClass : String
  requiredPsets : List String
  requiredProperties : List (String × List String)
deriving DecidableEq, Repr

/-- A validation result (`PropertyValidator.ts`); `elementID` carries the raw
mesh `expressID` value. -/
structure ValidationResult where
  elementID : IfcVal
  modelID : Int
  ifcClass : String
  missingPsets : List String
  missingProperties : List (String × List String)
  passed : Bool
deriving DecidableEq, Repr

/-- `.toUpperCase()`: uppercase every character (list-based so that it
evaluates by kernel reduction; identical to mapping `Char.toUpper`). -/
def jsToUpper (s : String) : String := ⟨s.data.map Char.toUpper⟩

/-- `hay.includes(needle)`: contiguous-substring test, on character lists. -/
def strIncludes (hay needle : String) : Bool :=
  decide (needle.toList <:+: hay.toList)

/-- `propertySets.find(ps => ps.Name && ps.Name.value === name)`. -/
def findPset (psets : List IfcRecord) (name : String) : Option IfcRecord :=
  psets.find? (fun ps =>
    match ps.Name with
    | some b => b.value.strictEqStr name
    | none => false)

/-- `foundPset.HasProperties.some(p => p.Name && p.Name.value === propName)`. -/
def propExists (l : List PropEntry) (propName : String) : Bool :=
  l.any (fun p =>
    match p.Name with
    | some b => b.value.strictEqStr propName
    | none => false)

/-- `ifcType = props.type || (props.constructor ? props.constructor.name : "")`
followed by `.toUpperCase()`; `none` when `ifcType` is not a string, in which
case `.toUpperCase()` throws (caught by the element-level catch). -/
def normalizedTypeOf (props : IfcRecord) : Option String :=
  match (if props.type.truthy then props.type else IfcVal.vstr props.ctorName) with
  | .vstr s => some (jsToUpper s)
  | _ => none

/-- The mutable per-element accumulator of `validateElement`'s rule loop:
`missingPsets`, `missingProperties` and the `hasError` flag. -/
structure VElemAcc where
  missingPsets : List String
  missingProperties : List (String × List String)
  hasError : Bool
deriving DecidableEq, Repr

/-- `if (!missingProperties[k]) missingProperties[k] = [];
if (!missingProperties[k].includes(v)) missingProperties[k].push(v)`. -/
def addMissingProp : List (String × List String) → String → String → List (String × List String)
  | [], k, v => [(k, [v])]
  | (k', l) :: rest, k, v =>
    if k' = k then (if v ∈ l then (k', l) :: rest else (k', l ++ [v]) :: rest)
    else (k', l) :: addMissingProp rest k v

/-- `if (!missingProperties[k]) missingProperties[k] = [];
missingProperties[k].push(...vs)` — note: no duplicate check. -/
def pushAllProps : List (String × List String) → String → List String → List (String × List String)
  | [], k, vs => [(k, vs)]
  | (k', l) :: rest, k, vs =>
    if k' = k then (k', l ++ vs) :: rest
    else (k', l) :: pushAllProps rest k vs

/-- One iteration of the `for (const reqPset of rule.requiredPsets)` loop:
an exact name match against the fetched sets; absence appends the name to
`missingPsets` (deduplicated) and sets `hasError`. -/
def psetStep (psets : List IfcRecord) (acc : VElemAcc) (reqPset : String) : VElemAcc :=
  match findPset psets reqPset with
  | some _ => acc
  | none =>
    { acc with
      missingPsets :=
        if reqPset ∈ acc.missingPsets then acc.missingPsets
        else acc.missingPsets ++ [reqPset],
      hasError := true }

/-- One iteration of the inner `for (const propName of reqProps)` loop when the
found set has a `HasProperties` array. -/
def propStep (l : List PropEntry) (psetName : String) (acc : VElemAcc) (propName : String) : VElemAcc :=
  if propExists l propName then acc
  else
    { acc with
      missingProperties := addMissingProp acc.missingProperties psetName propName,
      hasError := true }

/-- One iteration of the
`for (const [psetName, reqProps] of Object.entries(rule.requiredProperties))`
loop: an absent set is skipped (`continue`); a set without a `HasProperties`
array records every required name at once; otherwise each name is checked. -/
def propsEntryStep (psets : List IfcRecord) (acc : VElemAcc) (entry : String × List String) : VElemAcc :=
  match findPset psets entry.1 with
  | none => acc
  | some foundPset =>
    match foundPset.HasProperties with
    | some l => entry.2.foldl (propStep l entry.1) acc
    | none =>
      { acc with
        missingProperties := pushAllProps acc.missingProperties entry.1 entry.2,
        hasError := true }

/-- One iteration of the `for (const rule of applicableRules)` loop. -/
def ruleStep (psets : List IfcRecord) (acc : VElemAcc) (rule : ValidationRule) : VElemAcc :=
  (rule.requiredProperties.foldl (propsEntryStep psets)
    (rule.requiredPsets.foldl (psetStep psets) acc))

/-- `validateElement` (PropertyValidator.ts): fetches base properties,
normalizes the class name, filters applicable rules (case-insensitive
substring match), fetches the property sets once, runs every applicable rule,
and returns `null` when anything throws or no rule applies. -/
def validateElement (eng : IfcEngine) (rules : List ValidationRule) (mesh : IFCMesh) :
    Option ValidationResult :=
  let modelID := mesh.modelIDor0
  match eng.getItemProperties modelID mesh.expressVal with
  | .error _ => none
  | .ok props =>
    match normalizedTypeOf props with
    | none => none
    | some normalizedType =>
      let applicableRules :=
        rules.filter (fun r => strIncludes normalizedType (jsToUpper r.ifcClass))
      if applicableRules.isEmpty then none
      else
        match eng.getPropertySets modelID mesh.expressVal true with
        | .error _ => none
        | .ok propertySets =>
          let acc := applicableRules.foldl (ruleStep propertySets) ⟨[], [], false⟩
          if acc.hasError = false then
            some ⟨mesh.expressVal, modelID, normalizedType, [], [], true⟩
          else
            some ⟨mesh.expressVal, modelID, normalizedType,
                  acc.missingPsets, acc.missingProperties, false⟩

/-- `Math.round(x)`: round half away from zero toward positive infinity
(JavaScript rounds `.5` up), modelled exactly on rationals. -/
def jsRound (q : ℚ) : Int := ⌊q + 1 / 2⌋

/-- `Math.round((processed / total) * 100)` for the progress callback. -/
def progressPct (processed total : Nat) : Int :=
  jsRound (((processed : ℚ) / (total : ℚ)) * 100)

/-- The outcome of one `validateModel` run: the returned result list, the
sequence of values the `onProgress` callback fired with (in order), and the
`console.warn` messages issued. -/
structure VRun where
  results : List ValidationResult
  progress : List Int
  warned : List String
deriving DecidableEq, Repr

/-- The `for (const mesh of meshes)` loop of `validateModel`: validates each
mesh sequentially, pushes failing results, and fires the progress callback
after every 10th processed element.  `processed` is the count before the
current iteration. -/
def vLoop (eng : IfcEngine) (rules : List ValidationRule) (total : Nat) :
    List IFCMesh → Nat → List ValidationResult × List Int
  | [], _ => ([], [])
  | m :: rest, processed =>
    let res := validateElement eng rules m
    let pr := processed + 1
    let out := vLoop eng rules total rest pr
    let rs :=
      match res with
      | some r => if r.passed then out.1 else r :: out.1
      | none => out.1
    let ps := if pr % 10 = 0 then progressPct pr total :: out.2 else out.2
    (rs, ps)

/-- The meshes `validateModel` collects: every mesh child whose `expressID`
field is defined. -/
def indexedMeshes (model : Model3D) : List IFCMesh :=
  model.meshes.filter (fun m => m.expressID.isSome)

/-- `validateModel` (PropertyValidator.ts), as the run it produces.  With no
live model it warns `"No model loaded to validate."` and returns the empty
result list without firing the callback; otherwise it walks all indexed
meshes sequentially and fires a final `onProgress(100)` after the loop. -/
def validateModelRun (eng : IfcEngine) (model? : Option Model3D)
    (rules : List ValidationRule) : VRun :=
  match model? with
  | none => ⟨[], [], ["No model loaded to validate."]⟩
  | some model =>
    let meshes := indexedMeshes model
    let out := vLoop eng rules meshes.length meshes 0
    ⟨out.1, out.2 ++ [100], []⟩

/-- The promise returned by `validateModel`: the method catches every
per-element failure and has no throw path of its own, so the promise always
resolves (never rejects) with the run's result. -/
def validateModel (eng : IfcEngine) (model? : Option Model3D)
    (rules : List ValidationRule) : Except String VRun :=
  .ok (validateModelRun eng model? rules)

/-- An axis-aligned bounding box (`THREE.Box3`) with at least one point; the
empty box is modelled as `Option.none` at use sites. -/
structure Box3 where
  lo : Vec3
  hi : Vec3
deriving DecidableEq, Repr

/-- Grow a box to contain one more point. -/
def Box3.expand (b : Box3) (v : Vec3) : Box3 :=
  ⟨⟨min b.lo.x v.x, min b.lo.y v.y, min b.lo.z v.z⟩,
   ⟨max b.hi.x v.x, max b.hi.y v.y, max b.hi.z v.z⟩⟩

/-- Shift a box by a translation (a translation-only `applyMatrix4`). -/
def Box3.shift (t : Vec3) (b : Box3) : Box3 := ⟨b.lo.add t, b.hi.add t⟩

/-- `Box3.union` of two non-empty boxes. -/
def Box3.union (a b : Box3) : Box3 :=
  ⟨⟨min a.lo.x b.lo.x, min a.lo.y b.lo.y, min a.lo.z b.lo.z⟩,
   ⟨max a.hi.x b.hi.x, max a.hi.y b.hi.y, max a.hi.z b.hi.z⟩⟩

/-- `Box3.getCenter`. -/
def Box3.center (b : Box3) : Vec3 :=
  ⟨(b.lo.x + b.hi.x) / 2, (b.lo.y + b.hi.y) / 2, (b.lo.z + b.hi.z) / 2⟩

/-- `geometry.computeBoundingBox()`: the box of the vertex positions, empty
(`none`) when the geometry has no vertices. -/
def Geometry.bbox (g : Geometry) : Option Box3 :=
  match g.vertices with
  | [] => none
  | v :: vs => some (vs.foldl Box3.expand ⟨v, v⟩)

/-- Per-mesh world-space bounding box used by `centerModel`: skipped when the
mesh has no geometry; an empty geometry box stays empty under the world
transform. -/
def IFCMesh.worldBox (m : IFCMesh) : Option Box3 :=
  match m.geometry with
  | none => none
  | some g => g.bbox.map (Box3.shift m.matrixWorldT)

/-- The union bounding box accumulated over all meshes (`new THREE.Box3()`
starts empty; union with an empty contribution is a no-op). -/
def unionBoxes (bs : List (Option Box3)) : Option Box3 :=
  bs.foldl
    (fun acc ob =>
      match acc, ob with
      | none, b => b
      | some a, none => some a
      | some a, some b => some (a.union b))
    none

/-- `centerModel` (IFCManager): computes the union world-space bounding box of
all mesh children; with no meshes, or an empty box, it warns and returns
without touching the model; otherwise it shifts every geometry's vertex data
by minus the box center, resets the container position, and records the
center as the model's `offset` attribute.  Returns the updated model and the
warnings issued. -/
def centerModel (model : Model3D) : Model3D × List String :=
  if model.meshes.isEmpty then
    (model, ["No meshes found in model to center"])
  else
    match unionBoxes (model.meshes.map IFCMesh.worldBox) with
    | none => (model, ["Computed bounding box is empty"])
    | some bbox =>
      let center := bbox.center
      let meshes' := model.meshes.map (fun m =>
        { m with geometry := m.geometry.map (Geometry.translate center.neg) })
      ({ meshes := meshes', position := ⟨0, 0, 0⟩, offset := some center }, [])

/-- The auxiliary type-level data `getElementProperties` attaches in step 4:
the type's own properties and, when the nested fetch succeeds, the type's own
property sets. -/
structure TypeProps where
  props : IfcRecord
  propertySets : Option (List IfcRecord)
deriving DecidableEq, Repr

/-- The property bundle `getElementProperties` returns. -/
structure Bundle where
  properties : IfcRecord
  propertySets : List IfcRecord
  materials : List IfcRecord
  typeProperties : Option TypeProps
  expressID : Int
  modelID : Int
deriving DecidableEq, Repr

/-- Step 3 of `getElementProperties`: the material loop inside one shared
`try` — a failing association fetch aborts the rest of the loop but keeps the
materials already collected; a resolved record is kept when it identifies as
`IFCMATERIAL` or carries a `Name` field. -/
def materialsLoop (eng : IfcEngine) (modelID : Int) : List ValueBox → List IfcRecord
  | [] => []
  | a :: rest =>
    match eng.getItemProperties modelID a.value with
    | .error _ => []
    | .ok ap =>
      if ap.type.strictEqStr "IFCMATERIAL" || ap.Name.isSome then
        ap :: materialsLoop eng modelID rest
      else
        materialsLoop eng modelID rest

/-- Step 5 of `getElementProperties`: the fallback association scan, each
iteration in its own `try`, keeping records whose resolved kind is
`IFCPROPERTYSET` or `IFCELEMENTQUANTITY` (re-fetched in full by their
`expressID`). -/
def fallbackLoop (eng : IfcEngine) (modelID : Int) : List ValueBox → List IfcRecord
  | [] => []
  | a :: rest =>
    let picked :=
      match eng.getItemProperties modelID a.value with
      | .error _ => []
      | .ok ap =>
        if ap.type.strictEqStr "IFCPROPERTYSET" || ap.type.strictEqStr "IFCELEMENTQUANTITY" then
          match eng.getItemProperties modelID (IfcVal.vnum ap.expressID) with
          | .error _ => []
          | .ok fullSet => [fullSet]
        else []
    picked ++ fallbackLoop eng modelID rest

/-- Step 4 of `getElementProperties`: type resolution, guarded by the
truthiness of `properties.type`; its own failure leaves `typeProperties`
null, and a failure of the nested property-set fetch merely omits them. -/
def typeLookup (eng : IfcEngine) (modelID : Int) (props : IfcRecord) : Option TypeProps :=
  if props.type.truthy then
    match eng.getItemProperties modelID props.type with
    | .error _ => none
    | .ok tp =>
      match eng.getPropertySets modelID props.type true with
      | .error _ => some ⟨tp, none⟩
      | .ok typePsets => some ⟨tp, some typePsets⟩
  else none

/-- `getElementProperties` (IFCManager): returns `null` when the mesh has no
`expressID`, and otherwise runs steps 1–5.  Steps 1 and 2 (base properties
and property sets) are guarded only by the function-level `try`, so a failure
of either returns `null`; steps 3–5 recover locally. -/
def getElementProperties (eng : IfcEngine) (mesh : IFCMesh) : Option Bundle :=
  match mesh.expressID with
  | none => none
  | some expressID =>
    let modelID := mesh.modelIDor0
    match eng.getItemProperties modelID (IfcVal.vnum expressID) with
    | .error _ => none
    | .ok properties =>
      match eng.getPropertySets modelID (IfcVal.vnum expressID) true with
      | .error _ => none
      | .ok propertySets =>
        let materials :=
          match properties.HasAssociations with
          | none => []
          | some assocs => materialsLoop eng modelID assocs
        let typeProperties := typeLookup eng modelID properties
        let propertySets' :=
          match propertySets.isEmpty, properties.HasAssociations with
          | true, some assocs => propertySets ++ fallbackLoop eng modelID assocs
          | _, _ => propertySets
        some ⟨properties, propertySets', materials, typeProperties, expressID, modelID⟩

/-- A highlight subset mesh returned by `createSubset`: the `modelID` the
engine stamped on it (possibly absent) and its geometry. -/
structure SubsetMesh where
  modelID : Option Int
  geometry : Option Geometry
deriving DecidableEq, Repr

/-- The subset-related surface of the external engine:
`createSubset({modelID, ids, material, scene, removePrevious})` and
`removeSubset(modelID, material)`, each of which may throw. -/
structure SubsetEngine where
  createSubset : Int → List Int → Except String SubsetMesh
  removeSubset : Int → Except String Unit

/-- The IFCManager state the highlight lifecycle touches: the currently live
model and the currently live highlight subset. -/
structure ViewerState where
  currentModel : Option Model3D
  currentSubset : Option SubsetMesh
deriving DecidableEq, Repr

/-- Engine calls made by the highlight operations, in order. -/
inductive SubsetEvent where
  | removedCall (modelID : Int)
  | createdCall (modelID : Int) (ids : List Int)
deriving DecidableEq, Repr

/-- `removeHighlight` (IFCManager): with no live subset it does nothing; with
one it calls `removeSubset` and nulls the reference — but the null assignment
sits after the engine call inside the `try`, so an engine failure (caught and
logged) leaves the stale reference in place. -/
def removeHighlight (eng : SubsetEngine) (st : ViewerState) :
    ViewerState × List SubsetEvent :=
  match st.currentSubset with
  | none => (st, [])
  | some sub =>
    let mid := sub.modelID.getD 0
    match eng.removeSubset mid with
    | .ok _ => ({ st with currentSubset := none }, [.removedCall mid])
    | .error _ => (st, [.removedCall mid])

/-- `highlightElement` (IFCManager): first removes the previous highlight,
returns early when no model is live, then creates the subset and — when the
current model carries an `offset` and the subset has geometry — translates the
subset's vertex data by the negated offset before storing it as the live
highlight.  Every failure path is caught, so the method never throws. -/
def highlightElement (eng : SubsetEngine) (st : ViewerState)
    (modelID expressID : Int) : ViewerState × List SubsetEvent :=
  let out := removeHighlight eng st
  match out.1.currentModel with
  | none => out
  | some model =>
    match eng.createSubset modelID [expressID] with
    | .error _ => (out.1, out.2 ++ [.createdCall modelID [expressID]])
    | .ok subset =>
      let subset' :=
        match model.offset, subset.geometry with
        | some off, some g => { subset with geometry := some (g.translate off.neg) }
        | _, _ => subset
      ({ out.1 with currentSubset := some subset' },
       out.2 ++ [.createdCall modelID [expressID]])

/-- `disposeCurrentModel` (IFCManager): removes the current model from the
scene and disposes its resources; it touches neither `currentSubset` nor any
other highlight state. -/
def disposeCurrentModel (st : ViewerState) : ViewerState :=
  { st with currentModel := none }

/-- `loadIFC` (IFCManager), abstracted over the parser's terminal outcome:
disposes the previous model first, then on success stores the freshly centered
model as current; on failure the error is re-thrown with no model live.  The
highlight state is not touched on any path. -/
def loadIFC (loadResult : Except String Model3D) (st : ViewerState) :
    ViewerState × Except String Model3D :=
  let st1 := disposeCurrentModel st
  match loadResult with
  | .error e => (st1, .error e)
  | .ok m =>
    let m' := (centerModel m).1
    ({ st1 with currentModel := some m' }, .ok m')

/-- Key lookup in the association-list model of a JavaScript object
(`missingProperties[k]`, `undefined` when the key is absent). -/
def mpGet : List (String × List String) → String → Option (List String)
  | [], _ => none
  | (k', l) :: rest, k => if k' = k then some l else mpGet rest k

/-- Sample wall item-properties record (class `IfcWall`). -/
def wallItem : IfcRecord := ⟨.vstr "IfcWall", "Object", none, none, none, 1⟩

/-- Sample slab item-properties record (class `IfcSlab`). -/
def slabItem : IfcRecord := ⟨.vstr "IfcSlab", "Object", none, none, none, 2⟩

/-- A property set named `"P"` whose record has no `HasProperties` field. -/
def psetNoProps : IfcRecord := ⟨.vnull, "", some ⟨.vstr "P"⟩, none, none, 10⟩

/-- A property set named `"Q"` with a present but empty `HasProperties` array. -/
def psetEmptyProps : IfcRecord := ⟨.vnull, "", some ⟨.vstr "Q"⟩, none, some [], 11⟩

/-- A mesh indexed as element 1 of model 0. -/
def sampleMesh : IFCMesh := ⟨some 1, some 0, none, ⟨0, 0, 0⟩⟩

/-- A mesh indexed as element 2 of model 0. -/
def slabMesh : IFCMesh := ⟨some 2, some 0, none, ⟨0, 0, 0⟩⟩

/-- An engine whose base-property fetch succeeds but whose property-set fetch
rejects. -/
def engPsetsFail : IfcEngine :=
  ⟨fun _ _ => .ok wallItem, fun _ _ _ => .error "network failure"⟩

/-- An engine returning a wall with no property sets at all. -/
def engNoPsets : IfcEngine := ⟨fun _ _ => .ok wallItem, fun _ _ _ => .ok []⟩

/-- An engine returning a wall whose only property set is `psetNoProps`. -/
def engPsetP : IfcEngine := ⟨fun _ _ => .ok wallItem, fun _ _ _ => .ok [psetNoProps]⟩

/-- An engine returning a wall whose only property set is `psetEmptyProps`. -/
def engPsetQ : IfcEngine := ⟨fun _ _ => .ok wallItem, fun _ _ _ => .ok [psetEmptyProps]⟩

/-- An engine serving element 1 as a wall and element 2 as a slab, with no
property sets. -/
def engWallSlab : IfcEngine :=
  ⟨fun _ v =>
      if v = .vnum 1 then .ok wallItem
      else if v = .vnum 2 then .ok slabItem
      else .error "not found",
   fun _ _ _ => .ok []⟩

/-- An engine whose every call rejects. -/
def engOffline : IfcEngine := ⟨fun _ _ => .error "offline", fun _ _ _ => .error "offline"⟩

/-- A rule requiring `Pset_WallCommon` on every wall. -/
def wallRule : ValidationRule := ⟨"IFCWALL", ["Pset_WallCommon"], []⟩

/-- A rule requiring property `"A"` in set `"P"` on classes containing
`"WALL"`. -/
def dupRuleA : ValidationRule := ⟨"WALL", [], [("P", ["A"])]⟩

/-- A rule requiring property `"A"` in set `"P"` on classes containing
`"IFC"`. -/
def dupRuleB : ValidationRule := ⟨"IFC", [], [("P", ["A"])]⟩

/-- A degenerate rule whose required-property list for set `"P"` is empty. -/
def emptyReqRule : ValidationRule := ⟨"WALL", [], [("P", [])]⟩

/-- A rule requiring two properties in set `"Q"` on walls. -/
def qRule : ValidationRule := ⟨"WALL", [], [("Q", ["LoadBearing", "IsExternal"])]⟩

/-- A model with one wall element and one slab element. -/
def wallSlabModel : Model3D := ⟨[sampleMesh, slabMesh], ⟨0, 0, 0⟩, none⟩

/-- A model with a single wall element. -/
def singleWallModel : Model3D := ⟨[sampleMesh], ⟨0, 0, 0⟩, none⟩

/-- A model with 25 indexed elements. -/
def model25 : Model3D := ⟨List.replicate 25 sampleMesh, ⟨0, 0, 0⟩, none⟩

/-- A model with no mesh children at all. -/
def emptyModel : Model3D := ⟨[], ⟨1, 1, 1⟩, none⟩

/-- A highlight subset left over from a previous model. -/
def ghostSub : SubsetMesh := ⟨some 0, some ⟨[⟨1, 2, 3⟩]⟩⟩

/-- A previously loaded model carrying an offset. -/
def oldModel : Model3D := ⟨[], ⟨0, 0, 0⟩, some ⟨5, 6, 7⟩⟩

/-- A freshly parsed replacement model. -/
def newModel : Model3D := ⟨[], ⟨0, 0, 0⟩, none⟩

/-- A subset engine whose calls all succeed; `createSubset` returns a one-vertex
subset stamped with the requested model id. -/
def sengOk : SubsetEngine :=
  ⟨fun mid _ => .ok ⟨some mid, some ⟨[⟨1, 2, 3⟩]⟩⟩, fun _ => .ok ()⟩

/-- A viewer state with a live offset-carrying model and a live highlight. -/
def stHighlighted : ViewerState := ⟨some oldModel, some ⟨some 0, none⟩⟩

/-- A viewer state with no live model but a stale highlight subset. -/
def stNoModel : ViewerState := ⟨none, some ⟨some 0, none⟩⟩

/-- The per-element accumulator `validateElement` computes: the rule loop,
folded over the applicable rules (case-insensitive substring match of the
class token) with both miss collections empty and the error flag down. -/
def elementAcc (psets : List IfcRecord) (nt : String) (rules : List ValidationRule) : VElemAcc :=
  (rules.filter (fun r => strIncludes nt (jsToUpper r.ifcClass))).foldl
    (ruleStep psets) ⟨[], [], false⟩

/-- Fold preservation: a property preserved by every step taken from the list
is preserved by the whole fold. -/
theorem foldlPresMem {α : Type} (P : VElemAcc → Prop) (step : VElemAcc → α → VElemAcc)
    (l : List α) (hpres : ∀ acc a, a ∈ l → P acc → P (step acc a)) :
    ∀ acc, P acc → P (l.foldl step acc) := by
  induction l with
  | nil => intro acc h; exact h
  | cons a rest ih =>
    intro acc h
    exact ih (fun acc' b hb => hpres acc' b (List.mem_cons_of_mem _ hb)) _
      (hpres acc a (List.mem_cons_self _ _) h)

/-- Fold establishment: a property established by the step at some list element
and preserved by every step holds after the whole fold. -/
theorem foldlEstab {α : Type} (P : VElemAcc → Prop) (step : VElemAcc → α → VElemAcc)
    (l : List α) (a : α) (ha : a ∈ l)
    (hest : ∀ acc, P (step acc a))
    (hpres : ∀ acc b, b ∈ l → P acc → P (step acc b)) :
    ∀ acc, P (l.foldl step acc) := by
  induction l with
  | nil => cases ha
  | cons b rest ih =>
    intro acc
    rcases List.mem_cons.mp ha with rfl | hmem
    · exact foldlPresMem P step rest
        (fun acc' c hc => hpres acc' c (List.mem_cons_of_mem _ hc)) _ (hest acc)
    · exact ih hmem (fun acc' c hc => hpres acc' c (List.mem_cons_of_mem _ hc)) _

/-- Closed form of `addMissingProp` at its own key. -/
theorem mpGet_addMissingProp_self (mp : List (String × List String)) (k v : String) :
    mpGet (addMissingProp mp k v) k =
      some (match mpGet mp k with
            | none => [v]
            | some l => if v ∈ l then l else l ++ [v]) := by
  induction mp with
  | nil => simp [addMissingProp, mpGet]
  | cons e rest ih =>
    obtain ⟨k', l⟩ := e
    by_cases hk : k' = k
    · subst hk
      by_cases hv : v ∈ l <;> simp [addMissingProp, hv, mpGet]
    · simp [addMissingProp, hk, mpGet, ih]

/-- `addMissingProp` leaves other keys untouched. -/
theorem mpGet_addMissingProp_ne (mp : List (String × List String)) (k v k' : String)
    (h : k ≠ k') : mpGet (addMissingProp mp k v) k' = mpGet mp k' := by
  induction mp with
  | nil => simp [addMissingProp, mpGet, h]
  | cons e rest ih =>
    obtain ⟨k₀, l⟩ := e
    by_cases hk : k₀ = k
    · subst hk
      by_cases hv : v ∈ l <;> simp [addMissingProp, hv, mpGet, h]
    · simp [addMissingProp, hk, mpGet, ih]

/-- Closed form of `pushAllProps` at its own key. -/
theorem mpGet_pushAllProps_self (mp : List (String × List String)) (k : String)
    (vs : List String) :
    mpGet (pushAllProps mp k vs) k = some ((mpGet mp k).getD [] ++ vs) := by
  induction mp with
  | nil => simp [pushAllProps, mpGet]
  | cons e rest ih =>
    obtain ⟨k₀, l⟩ := e
    by_cases hk : k₀ = k
    · subst hk; simp [pushAllProps, mpGet]
    · simp [pushAllProps, hk, mpGet, ih]

/-- `pushAllProps` leaves other keys untouched. -/
theorem mpGet_pushAllProps_ne (mp : List (String × List String)) (k k' : String)
    (vs : List String) (h : k ≠ k') :
    mpGet (pushAllProps mp k vs) k' = mpGet mp k' := by
  induction mp with
  | nil => simp [pushAllProps, mpGet, h]
  | cons e rest ih =>
    obtain ⟨k₀, l⟩ := e
    by_cases hk : k₀ = k
    · subst hk; simp [pushAllProps, mpGet, h]
    · simp [pushAllProps, hk, mpGet, ih]

/-- `psetStep` never touches `missingProperties`. -/
theorem psetStep_missingProperties (psets : List IfcRecord) (acc : VElemAcc) (s : String) :
    (psetStep psets acc s).missingProperties = acc.missingProperties := by
  unfold psetStep; split <;> rfl

/-- `psetStep` only extends `missingPsets`. -/
theorem psetStep_psets_mono (psets : List IfcRecord) (acc : VElemAcc) (s x : String)
    (hx : x ∈ acc.missingPsets) : x ∈ (psetStep psets acc s).missingPsets := by
  unfold psetStep; split
  · exact hx
  · by_cases hs : s ∈ acc.missingPsets <;> simp [hs, hx]

/-- `psetStep` preserves `missingPsets` dedup. -/
theorem psetStep_psets_nodup (psets : List IfcRecord) (acc : VElemAcc) (s : String)
    (hnd : acc.missingPsets.Nodup) : (psetStep psets acc s).missingPsets.Nodup := by
  unfold psetStep; split
  · exact hnd
  · by_cases hs : s ∈ acc.missingPsets <;> simp [hs, hnd, List.Nodup.append, List.nodup_append]

/-- `psetStep` never clears the error flag. -/
theorem psetStep_hasError_mono (psets : List IfcRecord) (acc : VElemAcc) (s : String)
    (he : acc.hasError = true) : (psetStep psets acc s).hasError = true := by
  unfold psetStep; split <;> simp [he]

/-- A required set that is absent from the fetched sets is recorded by its
`psetStep`, which also raises the error flag. -/
theorem psetStep_estab (psets : List IfcRecord) (acc : VElemAcc) (s : String)
    (habs : findPset psets s = none) :
    s ∈ (psetStep psets acc s).missingPsets ∧ (psetStep psets acc s).hasError = true := by
  unfold psetStep
  rw [habs]
  by_cases hs : s ∈ acc.missingPsets <;> simp [hs]

/-- `propStep` never touches `missingPsets`. -/
theorem propStep_missingPsets (l : List PropEntry) (k : String) (acc : VElemAcc) (p : String) :
    (propStep l k acc p).missingPsets = acc.missingPsets := by
  unfold propStep; split <;> rfl

/-- `propStep` never clears the error flag. -/
theorem propStep_hasError_mono (l : List PropEntry) (k : String) (acc : VElemAcc) (p : String)
    (he : acc.hasError = true) : (propStep l k acc p).hasError = true := by
  unfold propStep; split <;> simp [he]

/-- `propStep` either keeps `missingProperties` or extends the entry of its own
key via `addMissingProp`. -/
theorem propStep_mp_mem_mono (l : List PropEntry) (k : String) (acc : VElemAcc)
    (p s w : String) (ml : List String)
    (hl : mpGet acc.missingProperties s = some ml) (hw : w ∈ ml) :
    ∃ ml', mpGet (propStep l k acc p).missingProperties s = some ml' ∧ w ∈ ml' := by
  unfold propStep; split
  · exact ⟨ml, hl, hw⟩
  · by_cases hk : k = s
    · subst hk
      refine ⟨_, mpGet_addMissingProp_self _ _ _, ?_⟩
      rw [hl]
      by_cases hp : p ∈ ml <;> simp [hp, hw]
    · exact ⟨ml, by rw [mpGet_addMissingProp_ne _ _ _ _ hk]; exact hl, hw⟩

/-- The fold of `propStep` over a rule's required names never touches
`missingPsets`. -/
theorem foldlPropStep_missingPsets (l : List PropEntry) (k : String) (es : List String) :
    ∀ acc : VElemAcc, ((es.foldl (propStep l k) acc)).missingPsets = acc.missingPsets := by
  induction es with
  | nil => intro acc; rfl
  | cons p rest ih => intro acc; rw [List.foldl_cons, ih, propStep_missingPsets]

/-- `propsEntryStep` never touches `missingPsets`. -/
theorem propsEntryStep_missingPsets (psets : List IfcRecord) (acc : VElemAcc)
    (e : String × List String) :
    (propsEntryStep psets acc e).missingPsets = acc.missingPsets := by
  unfold propsEntryStep
  split
  · rfl
  · split
    · rw [foldlPropStep_missingPsets]
    · rfl

/-- `propsEntryStep` never clears the error flag. -/
theorem propsEntryStep_hasError_mono (psets : List IfcRecord) (acc : VElemAcc)
    (e : String × List String) (he : acc.hasError = true) :
    (propsEntryStep psets acc e).hasError = true := by
  unfold propsEntryStep
  split
  · exact he
  · split
    · exact foldlPresMem (fun acc2 => acc2.hasError = true) (propStep _ _) _
        (fun acc' p _ hacc => propStep_hasError_mono _ _ acc' p hacc) acc he
    · rfl

/-- The fold of `propsEntryStep` over a rule's entries never touches
`missingPsets`. -/
theorem foldlPropsEntryStep_missingPsets (psets : List IfcRecord)
    (es : List (String × List String)) :
    ∀ acc : VElemAcc, (es.foldl (propsEntryStep psets) acc).missingPsets = acc.missingPsets := by
  induction es with
  | nil => intro acc; rfl
  | cons e rest ih => intro acc; rw [List.foldl_cons, ih, propsEntryStep_missingPsets]

/-- `ruleStep` keeps every previously recorded missing set name. -/
theorem ruleStep_psets_mono (psets : List IfcRecord) (acc : VElemAcc)
    (rule : ValidationRule) (x : String) (hx : x ∈ acc.missingPsets) :
    x ∈ (ruleStep psets acc rule).missingPsets := by
  unfold ruleStep
  rw [foldlPropsEntryStep_missingPsets]
  exact foldlPresMem (fun acc2 => x ∈ acc2.missingPsets) (psetStep psets) _
    (fun acc' s _ h => psetStep_psets_mono psets acc' s x h) acc hx

/-- `ruleStep` preserves `missingPsets` dedup. -/
theorem ruleStep_psets_nodup (psets : List IfcRecord) (acc : VElemAcc)
    (rule : ValidationRule) (hnd : acc.missingPsets.Nodup) :
    (ruleStep psets acc rule).missingPsets.Nodup := by
  unfold ruleStep
  rw [foldlPropsEntryStep_missingPsets]
  exact foldlPresMem (fun acc2 => acc2.missingPsets.Nodup) (psetStep psets) _
    (fun acc' s _ h => psetStep_psets_nodup psets acc' s h) acc hnd

/-- `ruleStep` never clears the error flag. -/
theorem ruleStep_hasError_mono (psets : List IfcRecord) (acc : VElemAcc)
    (rule : ValidationRule) (he : acc.hasError = true) :
    (ruleStep psets acc rule).hasError = true := by
  unfold ruleStep
  refine foldlPresMem (fun acc2 => acc2.hasError = true) (propsEntryStep psets) _
    (fun acc' e _ h => propsEntryStep_hasError_mono psets acc' e h) _ ?_
  exact foldlPresMem (fun acc2 => acc2.hasError = true) (psetStep psets) _
    (fun acc' s _ h => psetStep_hasError_mono psets acc' s h) acc he

/-- `propStep` at a key other than `s` leaves the entry of `s` untouched. -/
theorem propStep_mp_ne (l : List PropEntry) (k : String) (acc : VElemAcc)
    (p s : String) (hk : k ≠ s) :
    mpGet (propStep l k acc p).missingProperties s = mpGet acc.missingProperties s := by
  unfold propStep; split
  · rfl
  · exact mpGet_addMissingProp_ne _ _ _ _ hk

/-- The `propStep` fold at a key other than `s` leaves the entry of `s`
untouched. -/
theorem foldlPropStep_mp_ne (l : List PropEntry) (k : String) (es : List String)
    (s : String) (hk : k ≠ s) :
    ∀ acc : VElemAcc,
      mpGet ((es.foldl (propStep l k) acc)).missingProperties s
        = mpGet acc.missingProperties s := by
  induction es with
  | nil => intro acc; rfl
  | cons p rest ih => intro acc; rw [List.foldl_cons, ih, propStep_mp_ne _ _ _ _ _ hk]

/-- No step ever creates a `missingProperties` entry for a set name that is
absent from the fetched sets. -/
theorem propsEntryStep_mp_none (psets : List IfcRecord) (acc : VElemAcc)
    (e : String × List String) (s : String) (habs : findPset psets s = none)
    (h : mpGet acc.missingProperties s = none) :
    mpGet (propsEntryStep psets acc e).missingProperties s = none := by
  unfold propsEntryStep
  split
  · exact h
  · rename_i foundPset hfound
    have hk : e.1 ≠ s := by
      intro hes
      rw [hes, habs] at hfound
      cases hfound
    split
    · rw [foldlPropStep_mp_ne _ _ _ _ hk, h]
    · rw [mpGet_pushAllProps_ne _ _ _ _ hk, h]

/-- `ruleStep` never creates a `missingProperties` entry for a set name that is
absent from the fetched sets. -/
theorem ruleStep_mp_none (psets : List IfcRecord) (acc : VElemAcc)
    (rule : ValidationRule) (s : String) (habs : findPset psets s = none)
    (h : mpGet acc.missingProperties s = none) :
    mpGet (ruleStep psets acc rule).missingProperties s = none := by
  unfold ruleStep
  refine foldlPresMem (fun acc2 => mpGet acc2.missingProperties s = none)
    (propsEntryStep psets) _
    (fun acc' e _ hh => propsEntryStep_mp_none psets acc' e s habs hh) _ ?_
  refine foldlPresMem (fun acc2 => mpGet acc2.missingProperties s = none)
    (psetStep psets) _ (fun acc' s' _ hh => ?_) acc h
  show mpGet (psetStep psets acc' s').missingProperties s = none
  rw [psetStep_missingProperties]
  exact hh

/-- Processing a rule that requires an absent set records that set's name and
raises the error flag. -/
theorem ruleStep_estab_missing_pset (psets : List IfcRecord) (acc : VElemAcc)
    (rule : ValidationRule) (s : String) (hs : s ∈ rule.requiredPsets)
    (habs : findPset psets s = none) :
    s ∈ (ruleStep psets acc rule).missingPsets ∧ (ruleStep psets acc rule).hasError = true := by
  unfold ruleStep
  have hin : ∀ acc2 : VElemAcc,
      s ∈ (rule.requiredPsets.foldl (psetStep psets) acc2).missingPsets ∧
        (rule.requiredPsets.foldl (psetStep psets) acc2).hasError = true := by
    intro acc2
    refine foldlEstab
      (fun acc3 => s ∈ acc3.missingPsets ∧ acc3.hasError = true)
      (psetStep psets) _ s hs
      (fun acc' => psetStep_estab psets acc' s habs)
      (fun acc' b _ h => ⟨psetStep_psets_mono psets acc' b s h.1,
        psetStep_hasError_mono psets acc' b h.2⟩) acc2
  constructor
  · rw [foldlPropsEntryStep_missingPsets]
    exact (hin acc).1
  · exact foldlPresMem (fun acc2 => acc2.hasError = true) (propsEntryStep psets) _
      (fun acc' e _ h => propsEntryStep_hasError_mono psets acc' e h) _ (hin acc).2

/-- When the two engine fetches succeed, the class normalizes, and some rule
applies, `validateElement` reduces to the rule-loop fold. -/
theorem validateElement_eq_fold (eng : IfcEngine) (rules : List ValidationRule)
    (mesh : IFCMesh) (props : IfcRecord) (nt : String) (psets : List IfcRecord)
    (hp : eng.getItemProperties mesh.modelIDor0 mesh.expressVal = .ok props)
    (hnt : normalizedTypeOf props = some nt)
    (hne : rules.filter (fun r => strIncludes nt (jsToUpper r.ifcClass)) ≠ [])
    (hps : eng.getPropertySets mesh.modelIDor0 mesh.expressVal true = .ok psets) :
    validateElement eng rules mesh =
      (if ((rules.filter (fun r => strIncludes nt (jsToUpper r.ifcClass))).foldl
            (ruleStep psets) ⟨[], [], false⟩).hasError = false then
        some ⟨mesh.expressVal, mesh.modelIDor0, nt, [], [], true⟩
      else
        some ⟨mesh.expressVal, mesh.modelIDor0, nt,
          ((rules.filter (fun r => strIncludes nt (jsToUpper r.ifcClass))).foldl
            (ruleStep psets) ⟨[], [], false⟩).missingPsets,
          ((rules.filter (fun r => strIncludes nt (jsToUpper r.ifcClass))).foldl
            (ruleStep psets) ⟨[], [], false⟩).missingProperties, false⟩) := by
  unfold validateElement
  simp only [hp, hnt, hps, List.isEmpty_iff, hne, if_false]

/-- C6: for every element and applicable rule, a required property set absent
from the fetched sets has its name recorded (deduplicated) in `missingPsets`,
and no `missingProperties` entry is created for it — the pset-level miss
implicitly covers its required properties. -/
theorem validateElement_absent_pset_covered (eng : IfcEngine) (rules : List ValidationRule)
    (mesh : IFCMesh) (props : IfcRecord) (nt : String) (psets : List IfcRecord)
    (r : ValidationRule) (s : String)
    (hp : eng.getItemProperties mesh.modelIDor0 mesh.expressVal = .ok props)
    (hnt : normalizedTypeOf props = some nt)
    (hr : r ∈ rules)
    (happ : strIncludes nt (jsToUpper r.ifcClass) = true)
    (hps : eng.getPropertySets mesh.modelIDor0 mesh.expressVal true = .ok psets)
    (hs : s ∈ r.requiredPsets)
    (habs : findPset psets s = none) :
    validateElement eng rules mesh =
      some ⟨mesh.expressVal, mesh.modelIDor0, nt,
            (elementAcc psets nt rules).missingPsets,
            (elementAcc psets nt rules).missingProperties, false⟩ ∧
    s ∈ (elementAcc psets nt rules).missingPsets ∧
    (elementAcc psets nt rules).missingPsets.Nodup ∧
    mpGet (elementAcc psets nt rules).missingProperties s = none := by
  have hmemApp : r ∈ rules.filter (fun r => strIncludes nt (jsToUpper r.ifcClass)) :=
    List.mem_filter.mpr ⟨hr, happ⟩
  have hne : rules.filter (fun r => strIncludes nt (jsToUpper r.ifcClass)) ≠ [] :=
    List.ne_nil_of_mem hmemApp
  have hsF : s ∈ (elementAcc psets nt rules).missingPsets ∧
      (elementAcc psets nt rules).hasError = true :=
    foldlEstab (fun acc => s ∈ acc.missingPsets ∧ acc.hasError = true)
      (ruleStep psets) _ r hmemApp
      (fun acc => ruleStep_estab_missing_pset psets acc r s hs habs)
      (fun acc b _ h => ⟨ruleStep_psets_mono psets acc b s h.1,
        ruleStep_hasError_mono psets acc b h.2⟩) _
  have hnd : (elementAcc psets nt rules).missingPsets.Nodup :=
    foldlPresMem (fun acc => acc.missingPsets.Nodup) (ruleStep psets) _
      (fun acc b _ h => ruleStep_psets_nodup psets acc b h) _ List.nodup_nil
  have hnone : mpGet (elementAcc psets nt rules).missingProperties s = none :=
    foldlPresMem (fun acc => mpGet acc.missingProperties s = none) (ruleStep psets) _
      (fun acc b _ h => ruleStep_mp_none psets acc b s habs h) _ rfl
  refine ⟨?_, hsF.1, hnd, hnone⟩
  rw [validateElement_eq_fold eng rules mesh props nt psets hp hnt hne hps]
  have : (elementAcc psets nt rules).hasError = true := hsF.2
  rw [if_neg]
  · rfl
  · rw [show ((rules.filter (fun r => strIncludes nt (jsToUpper r.ifcClass))).foldl
        (ruleStep psets) ⟨[], [], false⟩) = elementAcc psets nt rules from rfl, this]
    simp

/-- Witness for C6: a wall with no property sets at all, checked against a rule
requiring `Pset_WallCommon`. -/
theorem validateElement_absent_pset_covered_witness :
    validateElement engNoPsets [wallRule] sampleMesh =
      some ⟨IfcVal.vnum 1, 0, "IFCWALL",
            (elementAcc [] "IFCWALL" [wallRule]).missingPsets,
            (elementAcc [] "IFCWALL" [wallRule]).missingProperties, false⟩ ∧
    "Pset_WallCommon" ∈ (elementAcc [] "IFCWALL" [wallRule]).missingPsets ∧
    (elementAcc [] "IFCWALL" [wallRule]).missingPsets.Nodup ∧
    mpGet (elementAcc [] "IFCWALL" [wallRule]).missingProperties "Pset_WallCommon" = none :=
  validateElement_absent_pset_covered engNoPsets [wallRule] sampleMesh wallItem
    "IFCWALL" [] wallRule "Pset_WallCommon" rfl (by decide) (List.mem_singleton.mpr rfl)
    (by decide) rfl (List.mem_singleton.mpr rfl) rfl

/-- A `propStep` on a missing property records it under the step's own key and
raises the error flag. -/
theorem propStep_mp_estab (l : List PropEntry) (k : String) (acc : VElemAcc) (p : String)
    (hmiss : propExists l p = false) :
    (∃ ml, mpGet (propStep l k acc p).missingProperties k = some ml ∧ p ∈ ml) ∧
      (propStep l k acc p).hasError = true := by
  unfold propStep
  rw [hmiss, if_neg (by simp)]
  refine ⟨⟨_, mpGet_addMissingProp_self _ _ _, ?_⟩, rfl⟩
  cases h : mpGet acc.missingProperties k with
  | none => simp
  | some l2 => by_cases hp : p ∈ l2 <;> simp [hp]

/-- The `propStep` fold keeps every recorded missing property name. -/
theorem foldlPropStep_mp_mem_mono (l : List PropEntry) (k : String) (es : List String)
    (s w : String) :
    ∀ (acc : VElemAcc) (ml : List String),
      mpGet acc.missingProperties s = some ml → w ∈ ml →
      ∃ ml2, mpGet ((es.foldl (propStep l k) acc)).missingProperties s = some ml2 ∧ w ∈ ml2 := by
  induction es with
  | nil => exact fun acc ml hl hw => ⟨ml, hl, hw⟩
  | cons q rest ih =>
    intro acc ml hl hw
    rw [List.foldl_cons]
    obtain ⟨ml2, hml2, hw2⟩ := propStep_mp_mem_mono l k acc q s w ml hl hw
    exact ih _ ml2 hml2 hw2

/-- `propsEntryStep` keeps every recorded missing property name. -/
theorem propsEntryStep_mp_mem_mono (psets : List IfcRecord) (acc : VElemAcc)
    (e : String × List String) (s w : String) (ml : List String)
    (hl : mpGet acc.missingProperties s = some ml) (hw : w ∈ ml) :
    ∃ ml2, mpGet (propsEntryStep psets acc e).missingProperties s = some ml2 ∧ w ∈ ml2 := by
  unfold propsEntryStep
  split
  · exact ⟨ml, hl, hw⟩
  · split
    · exact foldlPropStep_mp_mem_mono _ e.1 e.2 s w acc ml hl hw
    · by_cases hk : e.1 = s
      · subst hk
        refine ⟨_, mpGet_pushAllProps_self _ _ _, ?_⟩
        rw [hl]
        simp [hw]
      · exact ⟨ml, by rw [mpGet_pushAllProps_ne _ _ _ _ hk]; exact hl, hw⟩

/-- `ruleStep` keeps every recorded missing property name. -/
theorem ruleStep_mp_mem_mono (psets : List IfcRecord) (acc : VElemAcc)
    (rule : ValidationRule) (s w : String) (ml : List String)
    (hl : mpGet acc.missingProperties s = some ml) (hw : w ∈ ml) :
    ∃ ml2, mpGet (ruleStep psets acc rule).missingProperties s = some ml2 ∧ w ∈ ml2 := by
  unfold ruleStep
  have h1 : ∃ ml2, mpGet ((rule.requiredPsets.foldl (psetStep psets) acc)).missingProperties s
      = some ml2 ∧ w ∈ ml2 := by
    refine foldlPresMem
      (fun acc2 => ∃ ml2, mpGet acc2.missingProperties s = some ml2 ∧ w ∈ ml2)
      (psetStep psets) _ (fun acc2 b _ h => ?_) acc ⟨ml, hl, hw⟩
    show ∃ ml2, mpGet (psetStep psets acc2 b).missingProperties s = some ml2 ∧ w ∈ ml2
    rw [psetStep_missingProperties]
    exact h
  obtain ⟨ml1, hml1, hw1⟩ := h1
  refine foldlPresMem
    (fun acc2 => ∃ ml2, mpGet acc2.missingProperties s = some ml2 ∧ w ∈ ml2)
    (propsEntryStep psets) _ (fun acc2 e _ h => ?_) _ ⟨ml1, hml1, hw1⟩
  obtain ⟨ml2, hml2, hw2⟩ := h
  exact propsEntryStep_mp_mem_mono psets acc2 e s w ml2 hml2 hw2

/-- Bundled monotonicity: `ruleStep` keeps a recorded name and a raised flag. -/
theorem ruleStep_mp_mem_err_mono (psets : List IfcRecord) (acc : VElemAcc)
    (rule : ValidationRule) (s w : String)
    (h : (∃ ml, mpGet acc.missingProperties s = some ml ∧ w ∈ ml) ∧ acc.hasError = true) :
    (∃ ml, mpGet (ruleStep psets acc rule).missingProperties s = some ml ∧ w ∈ ml) ∧
      (ruleStep psets acc rule).hasError = true := by
  obtain ⟨⟨ml, hml, hw⟩, herr⟩ := h
  exact ⟨ruleStep_mp_mem_mono psets acc rule s w ml hml hw,
    ruleStep_hasError_mono psets acc rule herr⟩

/-- Processing an entry whose set is present with a `HasProperties` array
records every required name absent from that array (branch A). -/
theorem propsEntryStep_estab_checked (psets : List IfcRecord) (acc : VElemAcc)
    (s : String) (reqProps : List String) (P : IfcRecord) (l : List PropEntry) (p : String)
    (hfound : findPset psets s = some P) (hHP : P.HasProperties = some l)
    (hpmem : p ∈ reqProps) (hmiss : propExists l p = false) :
    (∃ ml, mpGet (propsEntryStep psets acc (s, reqProps)).missingProperties s = some ml ∧
      p ∈ ml) ∧ (propsEntryStep psets acc (s, reqProps)).hasError = true := by
  unfold propsEntryStep
  rw [hfound]
  simp only
  rw [hHP]
  refine foldlEstab
    (fun acc2 => (∃ ml, mpGet acc2.missingProperties s = some ml ∧ p ∈ ml) ∧
      acc2.hasError = true)
    (propStep l s) reqProps p hpmem
    (fun acc2 => propStep_mp_estab l s acc2 p hmiss)
    (fun acc2 q _ h => ?_) acc
  obtain ⟨⟨ml, hml, hw⟩, herr⟩ := h
  obtain ⟨ml2, hml2, hw2⟩ := propStep_mp_mem_mono l s acc2 q s p ml hml hw
  exact ⟨⟨ml2, hml2, hw2⟩, propStep_hasError_mono l s acc2 q herr⟩

/-- Processing an entry whose set is present without a `HasProperties` field
records every required name at once (branch B). -/
theorem propsEntryStep_estab_pushAll (psets : List IfcRecord) (acc : VElemAcc)
    (s : String) (reqProps : List String) (P : IfcRecord) (p : String)
    (hfound : findPset psets s = some P) (hHP : P.HasProperties = none)
    (hpmem : p ∈ reqProps) :
    (∃ ml, mpGet (propsEntryStep psets acc (s, reqProps)).missingProperties s = some ml ∧
      p ∈ ml) ∧ (propsEntryStep psets acc (s, reqProps)).hasError = true := by
  unfold propsEntryStep
  rw [hfound]
  simp only
  rw [hHP]
  refine ⟨⟨_, mpGet_pushAllProps_self _ _ _, ?_⟩, rfl⟩
  simp [hpmem]

/-- A rule containing the entry establishes the record (branch A), at the whole
`ruleStep`. -/
theorem ruleStep_estab_checked (psets : List IfcRecord) (acc : VElemAcc)
    (rule : ValidationRule) (s : String) (reqProps : List String) (P : IfcRecord)
    (l : List PropEntry) (p : String)
    (hentry : (s, reqProps) ∈ rule.requiredProperties)
    (hfound : findPset psets s = some P) (hHP : P.HasProperties = some l)
    (hpmem : p ∈ reqProps) (hmiss : propExists l p = false) :
    (∃ ml, mpGet (ruleStep psets acc rule).missingProperties s = some ml ∧ p ∈ ml) ∧
      (ruleStep psets acc rule).hasError = true := by
  unfold ruleStep
  refine foldlEstab
    (fun acc2 => (∃ ml, mpGet acc2.missingProperties s = some ml ∧ p ∈ ml) ∧
      acc2.hasError = true)
    (propsEntryStep psets) _ (s, reqProps) hentry
    (fun acc2 => propsEntryStep_estab_checked psets acc2 s reqProps P l p hfound hHP
      hpmem hmiss)
    (fun acc2 e _ h => ?_) _
  obtain ⟨⟨ml, hml, hw⟩, herr⟩ := h
  obtain ⟨ml2, hml2, hw2⟩ := propsEntryStep_mp_mem_mono psets acc2 e s p ml hml hw
  exact ⟨⟨ml2, hml2, hw2⟩, propsEntryStep_hasError_mono psets acc2 e herr⟩

/-- A rule containing the entry establishes the record (branch B), at the whole
`ruleStep`. -/
theorem ruleStep_estab_pushAll (psets : List IfcRecord) (acc : VElemAcc)
    (rule : ValidationRule) (s : String) (reqProps : List String) (P : IfcRecord) (p : String)
    (hentry : (s, reqProps) ∈ rule.requiredProperties)
    (hfound : findPset psets s = some P) (hHP : P.HasProperties = none)
    (hpmem : p ∈ reqProps) :
    (∃ ml, mpGet (ruleStep psets acc rule).missingProperties s = some ml ∧ p ∈ ml) ∧
      (ruleStep psets acc rule).hasError = true := by
  unfold ruleStep
  refine foldlEstab
    (fun acc2 => (∃ ml, mpGet acc2.missingProperties s = some ml ∧ p ∈ ml) ∧
      acc2.hasError = true)
    (propsEntryStep psets) _ (s, reqProps) hentry
    (fun acc2 => propsEntryStep_estab_pushAll psets acc2 s reqProps P p hfound hHP hpmem)
    (fun acc2 e _ h => ?_) _
  obtain ⟨⟨ml, hml, hw⟩, herr⟩ := h
  obtain ⟨ml2, hml2, hw2⟩ := propsEntryStep_mp_mem_mono psets acc2 e s p ml hml hw
  exact ⟨⟨ml2, hml2, hw2⟩, propsEntryStep_hasError_mono psets acc2 e herr⟩

/-- `propStep` preserves dedup of every `missingProperties` entry whose set
record carries a `HasProperties` array (its additions always dedup). -/
theorem propStep_nodup_entries (psets : List IfcRecord) (l0 : List PropEntry)
    (k0 : String) (acc : VElemAcc) (p : String)
    (hinv : ∀ k ml Q l, mpGet acc.missingProperties k = some ml →
      findPset psets k = some Q → Q.HasProperties = some l → ml.Nodup) :
    ∀ k ml Q l, mpGet (propStep l0 k0 acc p).missingProperties k = some ml →
      findPset psets k = some Q → Q.HasProperties = some l → ml.Nodup := by
  intro k ml Q l hml hfind hhp
  unfold propStep at hml
  split at hml
  · exact hinv k ml Q l hml hfind hhp
  · by_cases hk : k0 = k
    · subst hk
      rw [mpGet_addMissingProp_self] at hml
      injection hml with hml
      subst hml
      cases hold : mpGet acc.missingProperties k0 with
      | none => simp
      | some l2 =>
        have hnd : l2.Nodup := hinv k0 l2 Q l hold hfind hhp
        by_cases hp : p ∈ l2 <;> simp [hp, hnd, List.nodup_append]
    · rw [mpGet_addMissingProp_ne _ _ _ _ hk] at hml
      exact hinv k ml Q l hml hfind hhp

/-- `propsEntryStep` preserves dedup of every entry whose set record carries a
`HasProperties` array (its non-dedup additions only hit sets without one). -/
theorem propsEntryStep_nodup_entries (psets : List IfcRecord) (acc : VElemAcc)
    (e : String × List String)
    (hinv : ∀ k ml Q l, mpGet acc.missingProperties k = some ml →
      findPset psets k = some Q → Q.HasProperties = some l → ml.Nodup) :
    ∀ k ml Q l, mpGet (propsEntryStep psets acc e).missingProperties k = some ml →
      findPset psets k = some Q → Q.HasProperties = some l → ml.Nodup := by
  intro k ml Q l hml hfind hhp
  unfold propsEntryStep at hml
  split at hml
  · exact hinv k ml Q l hml hfind hhp
  · rename_i foundPset hfound
    split at hml
    · rename_i l1 hHP1
      have hfold : ∀ (es : List String) (acc2 : VElemAcc),
          (∀ k ml Q l, mpGet acc2.missingProperties k = some ml →
            findPset psets k = some Q → Q.HasProperties = some l → ml.Nodup) →
          ∀ k ml Q l,
            mpGet ((es.foldl (propStep l1 e.1) acc2)).missingProperties k = some ml →
            findPset psets k = some Q → Q.HasProperties = some l → ml.Nodup := by
        intro es
        induction es with
        | nil => exact fun acc2 h => h
        | cons q rest ih =>
          intro acc2 h
          rw [List.foldl_cons]
          exact ih _ (propStep_nodup_entries psets l1 e.1 acc2 q h)
      exact hfold e.2 acc hinv k ml Q l hml hfind hhp
    · rename_i hHPn
      by_cases hk : e.1 = k
      · subst hk
        rw [hfound] at hfind
        injection hfind with hfind
        subst hfind
        rw [hHPn] at hhp
        cases hhp
      · rw [mpGet_pushAllProps_ne _ _ _ _ hk] at hml
        exact hinv k ml Q l hml hfind hhp

/-- `ruleStep` preserves dedup of every entry whose set record carries a
`HasProperties` array. -/
theorem ruleStep_nodup_entries (psets : List IfcRecord) (acc : VElemAcc)
    (rule : ValidationRule)
    (hinv : ∀ k ml Q l, mpGet acc.missingProperties k = some ml →
      findPset psets k = some Q → Q.HasProperties = some l → ml.Nodup) :
    ∀ k ml Q l, mpGet (ruleStep psets acc rule).missingProperties k = some ml →
      findPset psets k = some Q → Q.HasProperties = some l → ml.Nodup := by
  unfold ruleStep
  have h1 : ∀ k ml Q l,
      mpGet ((rule.requiredPsets.foldl (psetStep psets) acc)).missingProperties k = some ml →
      findPset psets k = some Q → Q.HasProperties = some l → ml.Nodup := by
    refine foldlPresMem
      (fun acc2 => ∀ k ml Q l, mpGet acc2.missingProperties k = some ml →
        findPset psets k = some Q → Q.HasProperties = some l → ml.Nodup)
      (psetStep psets) _ (fun acc2 b _ h => ?_) acc hinv
    show ∀ k ml Q l, mpGet (psetStep psets acc2 b).missingProperties k = some ml →
      findPset psets k = some Q → Q.HasProperties = some l → ml.Nodup
    rw [psetStep_missingProperties]
    exact h
  exact foldlPresMem
    (fun acc2 => ∀ k ml Q l, mpGet acc2.missingProperties k = some ml →
      findPset psets k = some Q → Q.HasProperties = some l → ml.Nodup)
    (propsEntryStep psets) _
    (fun acc2 e _ h => propsEntryStep_nodup_entries psets acc2 e h) _ h1

/-- C7 (amended): for an applicable rule and a required property of a present
set — if the set record has a `HasProperties` array, each required name absent
from it is appended under the set's name with dedup (so that entry has no
duplicates, and an empty array records every required name); if the set record
has no `HasProperties` field, every required name is recorded, without the
dedup guarantee. -/
theorem validateElement_present_pset_checks (eng : IfcEngine) (rules : List ValidationRule)
    (mesh : IFCMesh) (props : IfcRecord) (nt : String) (psets : List IfcRecord)
    (r : ValidationRule) (s : String) (reqProps : List String) (P : IfcRecord) (p : String)
    (hp : eng.getItemProperties mesh.modelIDor0 mesh.expressVal = .ok props)
    (hnt : normalizedTypeOf props = some nt)
    (hr : r ∈ rules)
    (happ : strIncludes nt (jsToUpper r.ifcClass) = true)
    (hps : eng.getPropertySets mesh.modelIDor0 mesh.expressVal true = .ok psets)
    (hentry : (s, reqProps) ∈ r.requiredProperties)
    (hfound : findPset psets s = some P)
    (hpmem : p ∈ reqProps) :
    (∀ l, P.HasProperties = some l → propExists l p = false →
        validateElement eng rules mesh =
          some ⟨mesh.expressVal, mesh.modelIDor0, nt,
                (elementAcc psets nt rules).missingPsets,
                (elementAcc psets nt rules).missingProperties, false⟩ ∧
        p ∈ (mpGet (elementAcc psets nt rules).missingProperties s).getD [] ∧
        ((mpGet (elementAcc psets nt rules).missingProperties s).getD []).Nodup) ∧
    (P.HasProperties = none →
        validateElement eng rules mesh =
          some ⟨mesh.expressVal, mesh.modelIDor0, nt,
                (elementAcc psets nt rules).missingPsets,
                (elementAcc psets nt rules).missingProperties, false⟩ ∧
        p ∈ (mpGet (elementAcc psets nt rules).missingProperties s).getD []) := by
  have hmemApp : r ∈ rules.filter (fun r => strIncludes nt (jsToUpper r.ifcClass)) :=
    List.mem_filter.mpr ⟨hr, happ⟩
  have hne : rules.filter (fun r => strIncludes nt (jsToUpper r.ifcClass)) ≠ [] :=
    List.ne_nil_of_mem hmemApp
  constructor
  · intro l hHP hmiss
    have hest : (∃ ml, mpGet (elementAcc psets nt rules).missingProperties s = some ml ∧
        p ∈ ml) ∧ (elementAcc psets nt rules).hasError = true :=
      foldlEstab
        (fun acc => (∃ ml, mpGet acc.missingProperties s = some ml ∧ p ∈ ml) ∧
          acc.hasError = true)
        (ruleStep psets) _ r hmemApp
        (fun acc => ruleStep_estab_checked psets acc r s reqProps P l p hentry hfound hHP
          hpmem hmiss)
        (fun acc b _ h => ruleStep_mp_mem_err_mono psets acc b s p h) _
    obtain ⟨⟨ml, hml, hpm⟩, herr⟩ := hest
    have hnodup : ∀ k ml2 Q l2,
        mpGet (elementAcc psets nt rules).missingProperties k = some ml2 →
        findPset psets k = some Q → Q.HasProperties = some l2 → ml2.Nodup :=
      foldlPresMem
        (fun acc => ∀ k ml2 Q l2, mpGet acc.missingProperties k = some ml2 →
          findPset psets k = some Q → Q.HasProperties = some l2 → ml2.Nodup)
        (ruleStep psets) _
        (fun acc b _ h => ruleStep_nodup_entries psets acc b h) _
        (by intro k ml2 Q l2 hml2 _ _; cases hml2)
    refine ⟨?_, ?_, ?_⟩
    · rw [validateElement_eq_fold eng rules mesh props nt psets hp hnt hne hps, if_neg]
      · rfl
      · rw [show ((rules.filter (fun r => strIncludes nt (jsToUpper r.ifcClass))).foldl
            (ruleStep psets) ⟨[], [], false⟩) = elementAcc psets nt rules from rfl, herr]
        simp
    · rw [hml]
      simpa using hpm
    · rw [hml]
      simpa using hnodup s ml P l hml hfound hHP
  · intro hHPn
    have hest : (∃ ml, mpGet (elementAcc psets nt rules).missingProperties s = some ml ∧
        p ∈ ml) ∧ (elementAcc psets nt rules).hasError = true :=
      foldlEstab
        (fun acc => (∃ ml, mpGet acc.missingProperties s = some ml ∧ p ∈ ml) ∧
          acc.hasError = true)
        (ruleStep psets) _ r hmemApp
        (fun acc => ruleStep_estab_pushAll psets acc r s reqProps P p hentry hfound hHPn
          hpmem)
        (fun acc b _ h => ruleStep_mp_mem_err_mono psets acc b s p h) _
    obtain ⟨⟨ml, hml, hpm⟩, herr⟩ := hest
    refine ⟨?_, ?_⟩
    · rw [validateElement_eq_fold eng rules mesh props nt psets hp hnt hne hps, if_neg]
      · rfl
      · rw [show ((rules.filter (fun r => strIncludes nt (jsToUpper r.ifcClass))).foldl
            (ruleStep psets) ⟨[], [], false⟩) = elementAcc psets nt rules from rfl, herr]
        simp
    · rw [hml]
      simpa using hpm

/-- Witness for C7: a wall whose set `"Q"` is present with an empty
`HasProperties` array, against a rule requiring two properties in `"Q"`. -/
theorem validateElement_present_pset_checks_witness :
    validateElement engPsetQ [qRule] sampleMesh =
      some ⟨IfcVal.vnum 1, 0, "IFCWALL",
            (elementAcc [psetEmptyProps] "IFCWALL" [qRule]).missingPsets,
            (elementAcc [psetEmptyProps] "IFCWALL" [qRule]).missingProperties, false⟩ ∧
    "LoadBearing" ∈
      (mpGet (elementAcc [psetEmptyProps] "IFCWALL" [qRule]).missingProperties "Q").getD [] ∧
    ((mpGet (elementAcc [psetEmptyProps] "IFCWALL" [qRule]).missingProperties "Q").getD
      []).Nodup := by
  have h := validateElement_present_pset_checks engPsetQ [qRule] sampleMesh wallItem
    "IFCWALL" [psetEmptyProps] qRule "Q" ["LoadBearing", "IsExternal"] psetEmptyProps
    "LoadBearing" rfl (by decide) (List.mem_singleton.mpr rfl) (by decide) rfl
    (List.mem_singleton.mpr rfl) (by decide) (List.mem_cons_self _ _)
  exact h.1 [] rfl rfl

/-- Counterexample for C7 as stated: two applicable rules both requiring
property `"A"` of set `"P"`, where `"P"` is present without a `HasProperties`
field — the name is recorded twice, so `missingProperties["P"]` has
duplicates. -/
theorem validateElement_dup_missing_props :
    validateElement engPsetP [dupRuleA, dupRuleB] sampleMesh =
      some ⟨IfcVal.vnum 1, 0, "IFCWALL", [], [("P", ["A", "A"])], false⟩ ∧
    ¬ (["A", "A"] : List String).Nodup := by
  constructor
  · decide
  · decide

/-- Counterexample for C1 as stated: with no live model, `validateModel` does
not fail — its promise resolves with an ordinary (empty) result list, the
`NoModelLoaded` condition being only a console warning. -/
theorem validateModel_noModel_resolves :
    validateModel engOffline none [wallRule]
      = .ok ⟨[], [], ["No model loaded to validate."]⟩ ∧
    (validateModel engOffline none [wallRule]).isOk = true := ⟨rfl, rfl⟩

/-- C1 (amended): with no live model, `validateModel` warns
`"No model loaded to validate."`, resolves with the empty result list, and
fires no progress callback. -/
theorem validateModel_noModel_warns (eng : IfcEngine) (rules : List ValidationRule) :
    validateModel eng none rules = .ok ⟨[], [], ["No model loaded to validate."]⟩ :=
  rfl

/-- Counterexample for C2 as stated: an engine whose base-property fetch
succeeds but whose property-set fetch rejects makes `getElementProperties`
return `null`, although the primary fetch did not fail. -/
theorem getElementProperties_psetFail_null :
    getElementProperties engPsetsFail sampleMesh = none ∧
    (engPsetsFail.getItemProperties 0 (IfcVal.vnum 1)).isOk = true := ⟨rfl, rfl⟩

/-- C2 (amended): for a mesh carrying an `expressID`, `getElementProperties`
returns `null` exactly when the base-property fetch or the property-set fetch
fails; failures of material resolution, type resolution or fallback enrichment
(any behaviour of the engine on other calls) never make it `null`. -/
theorem getElementProperties_null_iff (eng : IfcEngine) (eid : Int) (mid : Option Int)
    (g : Option Geometry) (t : Vec3) :
    getElementProperties eng ⟨some eid, mid, g, t⟩ = none ↔
      ((eng.getItemProperties (mid.getD 0) (IfcVal.vnum eid)).isOk = false ∨
       (eng.getPropertySets (mid.getD 0) (IfcVal.vnum eid) true).isOk = false) := by
  rcases h1 : eng.getItemProperties (mid.getD 0) (IfcVal.vnum eid) with e1 | props
  · simp [getElementProperties, IFCMesh.modelIDor0, h1, Except.isOk, Except.toBool]
  · rcases h2 : eng.getPropertySets (mid.getD 0) (IfcVal.vnum eid) true with e2 | psets
    · simp [getElementProperties, IFCMesh.modelIDor0, h1, h2, Except.isOk, Except.toBool]
    · simp [getElementProperties, IFCMesh.modelIDor0, h1, h2, Except.isOk, Except.toBool]

/-- Counterexample for C3 as stated: on a model with no renderable primitive,
`centerModel` records no offset at all — the model's `offset` attribute stays
absent rather than being set to the zero vector. -/
theorem centerModel_noMeshes_offset_unset :
    (centerModel emptyModel).1.offset = none ∧
    (centerModel emptyModel).1.offset ≠ some ⟨0, 0, 0⟩ := by
  constructor
  · rfl
  · decide

/-- C3 (amended): on a model with no renderable primitive, `centerModel` does
not fail: it warns `"No meshes found in model to center"` and returns the
model untouched — geometry un-normalized and the `offset` attribute left
exactly as it was (unset on a fresh load), not set to zero. -/
theorem centerModel_noMeshes_noop (pos : Vec3) (off0 : Option Vec3) :
    centerModel ⟨[], pos, off0⟩
      = (⟨[], pos, off0⟩, ["No meshes found in model to center"]) :=
  rfl

/-- C4 (code bug): neither `disposeCurrentModel` nor `loadIFC` touches the
highlight state, so a highlight subset survives a model reload: after a
successful load that replaced the previous model, the stale subset is still
the live highlight. -/
theorem loadIFC_keeps_stale_highlight :
    (∀ (st : ViewerState) (res : Except String Model3D),
      (loadIFC res st).1.currentSubset = st.currentSubset) ∧
    (loadIFC (.ok newModel) ⟨some oldModel, some ghostSub⟩).1.currentSubset
      = some ghostSub ∧
    (loadIFC (.ok newModel) ⟨some oldModel, some ghostSub⟩).1.currentModel
      = some newModel := by
  refine ⟨fun st res => ?_, rfl, rfl⟩
  cases res <;> rfl

/-- C5: with a live model carrying an offset, `highlightElement` first clears
the previous highlight (the removal call precedes the creation call, and the
old subset is gone — at most one highlight is live) and stores the freshly
created subset with its geometry translated by the negated model offset. -/
theorem highlightElement_clears_then_translates (eng : SubsetEngine) (st : ViewerState)
    (mID eID : Int) (model : Model3D) (off : Vec3) (sub : SubsetMesh) (g : Geometry)
    (hm : st.currentModel = some model)
    (hoff : model.offset = some off)
    (hclear : ∀ s0, st.currentSubset = some s0 →
      eng.removeSubset (s0.modelID.getD 0) = Except.ok ())
    (hcreate : eng.createSubset mID [eID] = Except.ok sub)
    (hg : sub.geometry = some g) :
    (highlightElement eng st mID eID).1.currentSubset
        = some { sub with geometry := some (g.translate off.neg) } ∧
    (highlightElement eng st mID eID).2
        = (match st.currentSubset with
           | none => []
           | some s0 => [SubsetEvent.removedCall (s0.modelID.getD 0)])
          ++ [SubsetEvent.createdCall mID [eID]] := by
  cases hsub : st.currentSubset with
  | none =>
    have hrm : removeHighlight eng st = (st, []) := by
      unfold removeHighlight
      rw [hsub]
    simp only [highlightElement, hrm, hm, hcreate, hoff, hg]
    constructor <;> trivial
  | some s0 =>
    have hrm : removeHighlight eng st
        = ({ st with currentSubset := none }, [.removedCall (s0.modelID.getD 0)]) := by
      simp [removeHighlight, hsub, hclear s0 hsub]
    simp only [highlightElement, hrm, hm, hcreate, hoff, hg]
    constructor <;> trivial

/-- Witness for C5: a live model with offset `(5,6,7)` and a previous
highlight; the new subset's single vertex `(1,2,3)` is shifted to
`(-4,-4,-4)` and the removal call precedes the creation call. -/
theorem highlightElement_clears_then_translates_witness :
    (highlightElement sengOk stHighlighted 0 42).1.currentSubset
        = some ⟨some 0, some ⟨[⟨-4, -4, -4⟩]⟩⟩ ∧
    (highlightElement sengOk stHighlighted 0 42).2
        = [SubsetEvent.removedCall 0, SubsetEvent.createdCall 0 [42]] := by
  have h := highlightElement_clears_then_translates sengOk stHighlighted 0 42 oldModel
    ⟨5, 6, 7⟩ ⟨some 0, some ⟨[⟨1, 2, 3⟩]⟩⟩ ⟨[⟨1, 2, 3⟩]⟩ rfl rfl
    (by
      intro s0 hs
      have hs0 : (⟨some 0, none⟩ : SubsetMesh) = s0 := Option.some.inj hs
      rw [← hs0]
      rfl)
    rfl rfl
  refine ⟨?_, h.2⟩
  rw [h.1]
  norm_num [Geometry.translate, Vec3.add, Vec3.neg]

/-- C10: `highlightElement` with no live model still removes any existing
highlight first (assuming the engine's removal call succeeds) and returns
early: afterwards no model and no highlight subset are live, and the only
engine call made, if any, was the removal — no subset was created.  The
embedding is a total function: every failure path in the source is caught, so
the call raises no error. -/
theorem highlightElement_noModel (eng : SubsetEngine) (sub? : Option SubsetMesh)
    (mID eID : Int)
    (hclear : ∀ s0, sub? = some s0 →
      eng.removeSubset (s0.modelID.getD 0) = Except.ok ()) :
    (highlightElement eng ⟨none, sub?⟩ mID eID).1 = ⟨none, none⟩ ∧
    (highlightElement eng ⟨none, sub?⟩ mID eID).2
        = (match sub? with
           | none => []
           | some s0 => [SubsetEvent.removedCall (s0.modelID.getD 0)]) := by
  rcases sub? with _ | s0
  · exact ⟨rfl, rfl⟩
  · have hrm : removeHighlight eng ⟨none, some s0⟩
        = (⟨none, none⟩, [.removedCall (s0.modelID.getD 0)]) := by
      simp [removeHighlight, hclear s0 rfl]
    simp only [highlightElement, hrm]
    constructor <;> trivial

/-- Witness for C10: a stale highlight with no live model is removed and no
subset is created. -/
theorem highlightElement_noModel_witness :
    (highlightElement sengOk stNoModel 3 4).1 = ⟨none, none⟩ ∧
    (highlightElement sengOk stNoModel 3 4).2 = [SubsetEvent.removedCall 0] := by
  have h := highlightElement_noModel sengOk (some ⟨some 0, none⟩) 3 4
    (by
      intro s0 hs
      have hs0 : (⟨some 0, none⟩ : SubsetMesh) = s0 := Option.some.inj hs
      rw [← hs0]
      rfl)
  exact ⟨h.1, h.2⟩

/-- Closed form of the in-loop progress events: the callback fires exactly at
the processed counts that are multiples of 10, with the rounded percentage. -/
theorem vLoop_snd (eng : IfcEngine) (rules : List ValidationRule) (total : Nat) :
    ∀ (ms : List IFCMesh) (p : Nat),
      (vLoop eng rules total ms p).2
        = ((List.range' (p + 1) ms.length).filter (fun q => q % 10 = 0)).map
            (fun q => progressPct q total) := by
  intro ms
  induction ms with
  | nil => intro p; rfl
  | cons m rest ih =>
    intro p
    simp only [vLoop, List.length_cons, List.range'_succ, List.filter_cons, ih (p + 1)]
    by_cases h : (p + 1) % 10 = 0 <;> simp [h]

/-- `Math.round` is monotone. -/
theorem jsRound_mono {a b : ℚ} (h : a ≤ b) : jsRound a ≤ jsRound b :=
  Int.floor_mono (by linarith)

/-- The reported percentage is monotone in the processed count. -/
theorem progressPct_mono (total : Nat) {a b : Nat} (h : a ≤ b) :
    progressPct a total ≤ progressPct b total := by
  unfold progressPct
  apply jsRound_mono
  rcases Nat.eq_zero_or_pos total with h0 | hpos
  · subst h0
    simp
  · have ht : (0 : ℚ) < (total : ℚ) := by exact_mod_cast hpos
    have : (a : ℚ) / total ≤ (b : ℚ) / total := by
      apply (div_le_div_iff_of_pos_right ht).mpr
      exact_mod_cast h
    linarith

/-- The reported percentage never exceeds 100 while processing. -/
theorem progressPct_le_100 (q total : Nat) (h : q ≤ total) :
    progressPct q total ≤ 100 := by
  have hx : ((q : ℚ) / total) * 100 ≤ 100 := by
    rcases Nat.eq_zero_or_pos total with h0 | hpos
    · subst h0
      simp
    · have ht : (0 : ℚ) < (total : ℚ) := by exact_mod_cast hpos
      have h1 : (q : ℚ) / total ≤ 1 := by
        rw [div_le_one ht]
        exact_mod_cast h
      nlinarith
  have h100 : jsRound (100 : ℚ) = 100 := by
    unfold jsRound
    rw [Int.floor_eq_iff]
    norm_num
  calc progressPct q total ≤ jsRound 100 := jsRound_mono hx
    _ = 100 := h100

/-- C8: during a `validateModel` run over the indexed elements, `onProgress`
fires exactly after every 10th processed element — with the rounded integer
percentage of elements processed so far — and once more after the loop with a
final 100; the fired sequence is non-decreasing, never exceeds 100, and ends
with 100. -/
theorem validateModel_progress_steps (eng : IfcEngine) (model : Model3D)
    (rules : List ValidationRule) :
    (validateModelRun eng (some model) rules).progress
        = ((List.range' 1 (indexedMeshes model).length).filter (fun q => q % 10 = 0)).map
            (fun q => progressPct q (indexedMeshes model).length) ++ [100] ∧
    List.Pairwise (· ≤ ·) (validateModelRun eng (some model) rules).progress ∧
    (∀ v ∈ (validateModelRun eng (some model) rules).progress, v ≤ 100) ∧
    (validateModelRun eng (some model) rules).progress.getLast? = some 100 := by
  have hrun : (validateModelRun eng (some model) rules).progress
      = (vLoop eng rules (indexedMeshes model).length (indexedMeshes model) 0).2
        ++ [100] := rfl
  have hsnd := vLoop_snd eng rules (indexedMeshes model).length (indexedMeshes model) 0
  have hform : (validateModelRun eng (some model) rules).progress
      = ((List.range' 1 (indexedMeshes model).length).filter (fun q => q % 10 = 0)).map
          (fun q => progressPct q (indexedMeshes model).length) ++ [100] := by
    rw [hrun, hsnd]
  have hbound : ∀ v ∈ (validateModelRun eng (some model) rules).progress, v ≤ (100 : Int) := by
    intro v hv
    rw [hform] at hv
    rcases List.mem_append.mp hv with hv | hv
    · obtain ⟨q, hqf, rfl⟩ := List.mem_map.mp hv
      have hq : q ∈ List.range' 1 (indexedMeshes model).length := List.mem_of_mem_filter hqf
      have hq2 := (List.mem_range'_1.mp hq).2
      exact progressPct_le_100 q _ (by omega)
    · simp only [List.mem_singleton] at hv
      subst hv
      exact le_refl _
  refine ⟨hform, ?_, hbound, ?_⟩
  · rw [hform]
    refine List.pairwise_append.mpr ⟨?_, List.pairwise_singleton _ _, ?_⟩
    · rw [List.pairwise_map]
      refine List.Pairwise.imp ?_ ((List.pairwise_lt_range' 1 _).filter _)
      exact fun hab => progressPct_mono _ (Nat.le_of_lt hab)
    · intro a ha b hb
      simp only [List.mem_singleton] at hb
      subst hb
      refine hbound a ?_
      rw [hform]
      exact List.mem_append.mpr (Or.inl ha)
  · rw [hform]
    exact List.getLast?_concat _

/-- The result list built by the loop: exactly the failing results of the
processed meshes, in order. -/
theorem vLoop_fst (eng : IfcEngine) (rules : List ValidationRule) (total : Nat) :
    ∀ (ms : List IFCMesh) (p : Nat),
      (vLoop eng rules total ms p).1
        = ms.filterMap (fun m => (validateElement eng rules m).bind
            (fun r => if r.passed = true then none else some r)) := by
  intro ms
  induction ms with
  | nil => intro p; rfl
  | cons m rest ih =>
    intro p
    rcases h : validateElement eng rules m with _ | r
    · simp [vLoop, List.filterMap_cons, h, ih (p + 1)]
    · by_cases hp : r.passed = true <;>
        simp [vLoop, List.filterMap_cons, h, hp, ih (p + 1)]

/-- Every result produced by `validateElement` carries the mesh's raw
`expressID` value and `modelID || 0`. -/
theorem validateElement_ids (eng : IfcEngine) (rules : List ValidationRule)
    (m : IFCMesh) (r : ValidationResult) (h : validateElement eng rules m = some r) :
    r.elementID = m.expressVal ∧ r.modelID = m.modelIDor0 := by
  simp only [validateElement] at h
  split at h
  · exact absurd h (by simp)
  · split at h
    · exact absurd h (by simp)
    · split at h
      · exact absurd h (by simp)
      · split at h
        · exact absurd h (by simp)
        · split at h
          · injection h with h
            subst h
            exact ⟨rfl, rfl⟩
          · injection h with h
            subst h
            exact ⟨rfl, rfl⟩

/-- `psetStep` keeps the failing accumulator well-formed: a raised flag comes
with a recorded miss. -/
theorem psetStep_fail (psets : List IfcRecord) (acc : VElemAcc) (s : String)
    (h : acc.hasError = true →
      acc.missingPsets ≠ [] ∨ ∃ k ml, mpGet acc.missingProperties k = some ml ∧ ml ≠ []) :
    (psetStep psets acc s).hasError = true →
      (psetStep psets acc s).missingPsets ≠ [] ∨
      ∃ k ml, mpGet (psetStep psets acc s).missingProperties k = some ml ∧ ml ≠ [] := by
  unfold psetStep
  split
  · exact h
  · intro _
    left
    by_cases hs : s ∈ acc.missingPsets <;> simp [hs]
    exact List.ne_nil_of_mem hs

/-- `propStep` keeps the failing accumulator well-formed. -/
theorem propStep_fail (l : List PropEntry) (k : String) (acc : VElemAcc) (p : String)
    (h : acc.hasError = true →
      acc.missingPsets ≠ [] ∨ ∃ k2 ml, mpGet acc.missingProperties k2 = some ml ∧ ml ≠ []) :
    (propStep l k acc p).hasError = true →
      (propStep l k acc p).missingPsets ≠ [] ∨
      ∃ k2 ml, mpGet (propStep l k acc p).missingProperties k2 = some ml ∧ ml ≠ [] := by
  unfold propStep
  split
  · exact h
  · intro _
    right
    refine ⟨k, _, mpGet_addMissingProp_self _ _ _, ?_⟩
    cases hold : mpGet acc.missingProperties k with
    | none => simp
    | some l2 =>
      by_cases hp : p ∈ l2
      · simp only [hp, if_true]
        exact List.ne_nil_of_mem hp
      · simp [hp]

/-- `propsEntryStep` keeps the failing accumulator well-formed, provided the
entry requires at least one property. -/
theorem propsEntryStep_fail (psets : List IfcRecord) (acc : VElemAcc)
    (e : String × List String) (hvs : e.2 ≠ [])
    (h : acc.hasError = true →
      acc.missingPsets ≠ [] ∨ ∃ k ml, mpGet acc.missingProperties k = some ml ∧ ml ≠ []) :
    (propsEntryStep psets acc e).hasError = true →
      (propsEntryStep psets acc e).missingPsets ≠ [] ∨
      ∃ k ml, mpGet (propsEntryStep psets acc e).missingProperties k = some ml ∧ ml ≠ [] := by
  unfold propsEntryStep
  split
  · exact h
  · split
    · rename_i l1 hHP1
      have hfold : ∀ (es : List String) (acc2 : VElemAcc),
          (acc2.hasError = true →
            acc2.missingPsets ≠ [] ∨
            ∃ k ml, mpGet acc2.missingProperties k = some ml ∧ ml ≠ []) →
          ((es.foldl (propStep l1 e.1) acc2)).hasError = true →
            ((es.foldl (propStep l1 e.1) acc2)).missingPsets ≠ [] ∨
            ∃ k ml, mpGet ((es.foldl (propStep l1 e.1) acc2)).missingProperties k = some ml ∧
              ml ≠ [] := by
        intro es
        induction es with
        | nil => exact fun acc2 hh => hh
        | cons q rest ih =>
          intro acc2 hh
          rw [List.foldl_cons]
          exact ih _ (propStep_fail l1 e.1 acc2 q hh)
      exact hfold e.2 acc h
    · intro _
      right
      refine ⟨e.1, _, mpGet_pushAllProps_self _ _ _, ?_⟩
      simp [hvs]

/-- `ruleStep` keeps the failing accumulator well-formed, provided every entry
of the rule requires at least one property. -/
theorem ruleStep_fail (psets : List IfcRecord) (acc : VElemAcc) (rule : ValidationRule)
    (hrule : ∀ e ∈ rule.requiredProperties, e.2 ≠ ([] : List String))
    (h : acc.hasError = true →
      acc.missingPsets ≠ [] ∨ ∃ k ml, mpGet acc.missingProperties k = some ml ∧ ml ≠ []) :
    (ruleStep psets acc rule).hasError = true →
      (ruleStep psets acc rule).missingPsets ≠ [] ∨
      ∃ k ml, mpGet (ruleStep psets acc rule).missingProperties k = some ml ∧ ml ≠ [] := by
  unfold ruleStep
  have h1 := foldlPresMem
    (fun acc2 => acc2.hasError = true →
      acc2.missingPsets ≠ [] ∨ ∃ k ml, mpGet acc2.missingProperties k = some ml ∧ ml ≠ [])
    (psetStep psets) rule.requiredPsets
    (fun acc2 b _ hh => psetStep_fail psets acc2 b hh) acc h
  exact foldlPresMem
    (fun acc2 => acc2.hasError = true →
      acc2.missingPsets ≠ [] ∨ ∃ k ml, mpGet acc2.missingProperties k = some ml ∧ ml ≠ [])
    (propsEntryStep psets) rule.requiredProperties
    (fun acc2 e he hh => propsEntryStep_fail psets acc2 e (hrule e he) hh) _ h1

/-- The rule-loop fold only raises the error flag together with a recorded
miss, provided every processed rule's required-property lists are non-empty. -/
theorem elementFold_fail (psets : List IfcRecord) (L : List ValidationRule)
    (hL : ∀ ru ∈ L, ∀ e ∈ ru.requiredProperties, e.2 ≠ ([] : List String))
    (herr : (L.foldl (ruleStep psets) ⟨[], [], false⟩).hasError = true) :
    (L.foldl (ruleStep psets) ⟨[], [], false⟩).missingPsets ≠ [] ∨
    ∃ k ml, mpGet (L.foldl (ruleStep psets) ⟨[], [], false⟩).missingProperties k
      = some ml ∧ ml ≠ [] :=
  (foldlPresMem
    (fun acc2 => acc2.hasError = true →
      acc2.missingPsets ≠ [] ∨ ∃ k ml, mpGet acc2.missingProperties k = some ml ∧ ml ≠ [])
    (ruleStep psets) L
    (fun acc2 b hb hh => ruleStep_fail psets acc2 b (hL b hb) hh)
    ⟨[], [], false⟩ (fun hh => by cases hh)) herr

/-- A failing `validateElement` result records at least one miss, provided
every rule's required-property lists are non-empty. -/
theorem validateElement_failing_nonempty (eng : IfcEngine) (rules : List ValidationRule)
    (m : IFCMesh) (r : ValidationResult)
    (hne : ∀ ru ∈ rules, ∀ e ∈ ru.requiredProperties, e.2 ≠ ([] : List String))
    (h : validateElement eng rules m = some r) (hfail : r.passed = false) :
    r.missingPsets ≠ [] ∨ ∃ k ml, mpGet r.missingProperties k = some ml ∧ ml ≠ [] := by
  simp only [validateElement] at h
  split at h
  · exact absurd h (by simp)
  · split at h
    · exact absurd h (by simp)
    · split at h
      · exact absurd h (by simp)
      · split at h
        · exact absurd h (by simp)
        · split at h
          · injection h with h
            subst h
            simp at hfail
          · rename_i hErr
            injection h with h
            subst h
            simp only
            refine elementFold_fail _ _ ?_ ?_
            · intro ru hru
              exact hne ru (List.mem_of_mem_filter hru)
            · simpa using hErr

/-- The failing filter keeps a result exactly when `validateElement` produced
it with `passed = false`. -/
theorem bind_failing_eq_some (eng : IfcEngine) (rules : List ValidationRule)
    (m : IFCMesh) (x : ValidationResult)
    (h : (validateElement eng rules m).bind
        (fun r => if r.passed = true then none else some r) = some x) :
    validateElement eng rules m = some x ∧ x.passed = false := by
  rcases hv : validateElement eng rules m with _ | r
  · rw [hv] at h
    exact absurd h (by simp)
  · rw [hv] at h
    simp only [Option.some_bind] at h
    by_cases hp : r.passed = true
    · rw [if_pos hp] at h
      exact absurd h (by simp)
    · rw [if_neg hp] at h
      injection h with h
      subst h
      exact ⟨rfl, Bool.eq_false_iff.mpr hp⟩

/-- The result list is exactly as long as the count of failing elements. -/
theorem filterMap_failing_length (eng : IfcEngine) (rules : List ValidationRule) :
    ∀ ms : List IFCMesh,
      (ms.filterMap (fun m => (validateElement eng rules m).bind
          (fun r => if r.passed = true then none else some r))).length
        = ms.countP (fun m =>
            match validateElement eng rules m with
            | some r => !r.passed
            | none => false) := by
  intro ms
  induction ms with
  | nil => rfl
  | cons m rest ih =>
    rcases h : validateElement eng rules m with _ | r
    · simp [List.filterMap_cons, List.countP_cons, h, ih]
    · by_cases hp : r.passed = true <;>
        simp [List.filterMap_cons, List.countP_cons, h, hp, ih]

/-- C9 (amended): provided every rule's required-property lists are non-empty
and the indexed meshes carry pairwise distinct `(expressID, modelID)` keys,
one `validateModel` run returns only failing results (each with `passed =
false` and at least one recorded miss), at most one entry per element, and as
many entries as there are failing elements — passing elements and elements
with no applicable rule produce no entry. -/
theorem validateModel_failing_results (eng : IfcEngine) (model : Model3D)
    (rules : List ValidationRule)
    (hne : ∀ ru ∈ rules, ∀ e ∈ ru.requiredProperties, e.2 ≠ ([] : List String))
    (hkeys : (indexedMeshes model).Pairwise
      (fun a b => (a.expressVal, a.modelIDor0) ≠ (b.expressVal, b.modelIDor0))) :
    (∀ res ∈ (validateModelRun eng (some model) rules).results,
        res.passed = false ∧
        (res.missingPsets ≠ [] ∨
         ∃ k ml, mpGet res.missingProperties k = some ml ∧ ml ≠ [])) ∧
    (validateModelRun eng (some model) rules).results.Pairwise
        (fun a b => (a.elementID, a.modelID) ≠ (b.elementID, b.modelID)) ∧
    (validateModelRun eng (some model) rules).results.length
        = (indexedMeshes model).countP (fun m =>
            match validateElement eng rules m with
            | some r => !r.passed
            | none => false) := by
  have hres : (validateModelRun eng (some model) rules).results
      = (indexedMeshes model).filterMap (fun m => (validateElement eng rules m).bind
          (fun r => if r.passed = true then none else some r)) :=
    vLoop_fst eng rules (indexedMeshes model).length (indexedMeshes model) 0
  refine ⟨?_, ?_, ?_⟩
  · intro res hmem
    rw [hres] at hmem
    obtain ⟨m, hm, hfm⟩ := List.mem_filterMap.mp hmem
    obtain ⟨hv, hpf⟩ := bind_failing_eq_some eng rules m res hfm
    exact ⟨hpf, validateElement_failing_nonempty eng rules m res hne hv hpf⟩
  · rw [hres]
    refine List.Pairwise.filterMap _ ?_ hkeys
    intro a b hab x hx y hy
    obtain ⟨hva, _⟩ := bind_failing_eq_some eng rules a x hx
    obtain ⟨hvb, _⟩ := bind_failing_eq_some eng rules b y hy
    obtain ⟨hxe, hxm⟩ := validateElement_ids eng rules a x hva
    obtain ⟨hye, hym⟩ := validateElement_ids eng rules b y hvb
    intro hxy
    apply hab
    rw [Prod.mk.injEq] at hxy ⊢
    exact ⟨by rw [← hxe, ← hye, hxy.1], by rw [← hxm, ← hym, hxy.2]⟩
  · rw [hres]
    exact filterMap_failing_length eng rules (indexedMeshes model)

/-- Witness for C9: one wall failing the wall rule and one slab with no
applicable rule — exactly one failing entry is returned. -/
theorem validateModel_failing_results_witness :
    (∀ res ∈ (validateModelRun engWallSlab (some wallSlabModel) [wallRule]).results,
        res.passed = false ∧
        (res.missingPsets ≠ [] ∨
         ∃ k ml, mpGet res.missingProperties k = some ml ∧ ml ≠ [])) ∧
    (validateModelRun engWallSlab (some wallSlabModel) [wallRule]).results.Pairwise
        (fun a b => (a.elementID, a.modelID) ≠ (b.elementID, b.modelID)) ∧
    (validateModelRun engWallSlab (some wallSlabModel) [wallRule]).results.length
        = (indexedMeshes wallSlabModel).countP (fun m =>
            match validateElement engWallSlab [wallRule] m with
            | some r => !r.passed
            | none => false) ∧
    (validateModelRun engWallSlab (some wallSlabModel) [wallRule]).results.length = 1 := by
  have h := validateModel_failing_results engWallSlab wallSlabModel [wallRule]
    (by decide) (by decide)
  exact ⟨h.1, h.2.1, h.2.2, by decide⟩

/-- Counterexample for C9 as stated: a rule whose required-property list for a
present set (with no `HasProperties` field) is empty yields a returned
"failing" entry with empty `missingPsets` and no non-empty
`missingProperties` entry. -/
theorem validateModel_degenerate_failing_entry :
    (validateModelRun engPsetP (some singleWallModel) [emptyReqRule]).results
        = [⟨IfcVal.vnum 1, 0, "IFCWALL", [], [("P", [])], false⟩] ∧
    ¬ ((([] : List String) ≠ []) ∨
       ∃ k ml, mpGet [("P", ([] : List String))] k = some ml ∧ ml ≠ []) := by
  constructor
  · decide
  · intro hcon
    rcases hcon with hc | ⟨k, ml, hk, hml⟩
    · exact hc rfl
    · by_cases hPk : "P" = k
      · rw [show mpGet [("P", ([] : List String))] k = some [] from by simp [mpGet, hPk]] at hk
        injection hk with hk
        exact hml hk.symm
      · rw [show mpGet [("P", ([] : List String))] k = none from by simp [mpGet, hPk]] at hk
        cases hk

/-- Witness for C8, the spec's own example: over 25 indexed elements the
callback fires 40 (at the 10th element), 80 (at the 20th) and a final 100. -/
theorem validateModel_progress_steps_witness :
    (validateModelRun engOffline (some model25) []).progress = [40, 80, 100] ∧
    (validateModelRun engOffline (some model25) []).progress.getLast? = some 100 := by
  have h := validateModel_progress_steps engOffline model25 []
  have h10 : progressPct 10 25 = 40 := by
    unfold progressPct jsRound
    rw [show ((10 : Nat) : ℚ) / ((25 : Nat) : ℚ) * 100 + 1 / 2 = 81 / 2 by norm_num]
    rw [Int.floor_eq_iff]
    norm_num
  have h20 : progressPct 20 25 = 80 := by
    unfold progressPct jsRound
    rw [show ((20 : Nat) : ℚ) / ((25 : Nat) : ℚ) * 100 + 1 / 2 = 161 / 2 by norm_num]
    rw [Int.floor_eq_iff]
    norm_num
  have hn : (indexedMeshes model25).length = 25 := by decide
  refine ⟨?_, h.2.2.2⟩
  rw [h.1, hn]
  rw [show (List.range' 1 25).filter (fun q => q % 10 = 0) = [10, 20] by decide]
  simp only [List.map_cons, List.map_nil]
  rw [h10, h20]
  rfl
